import Mathlib

/-!
Verification development for the audit subsystem of the fainzy-cms repository
(diff calculator, retention/cleanup engine, and capture hooks), as a shallow
embedding of the TypeScript source into Lean.

Conventions used throughout:
* JavaScript timestamps are modelled as integers measured in days; the source
  computes day-granularity cutoffs via `Date.setDate(getDate() - n)`, which is
  subtraction of `n` days, and compares instants with `<`.
* `payload.find(..., sort: '-version', limit: 1)` returns the entry with the
  maximal version, so it is modelled by a maximum over the matching entries.
* Fallible collaborator calls (store reads, inserts, deletes) are driven by
  explicit failure oracles; a raised exception is an `Except.error` and the
  source's `try/catch` blocks become explicit `match`es on that result.
-/

namespace AuditCms

/-! ### Retention engine: `auditCleanup.ts` -/

/-- One stored audit-log row, restricted to the fields the cleanup code reads:
`id` (primary key used by `payload.delete`), `version`, `timestamp`
(day-granularity instant) and `isSnapshot`. -/
structure AuditLogEntry where
  id : Nat
  version : Nat
  timestamp : Int
  isSnapshot : Bool
deriving DecidableEq, Repr

/-- The retention-relevant part of `AuditConfig`: the optional
`windowDays` / `minVersions` / `maxDays` fields. -/
structure RetentionConfig where
  windowDays : Option Int
  minVersions : Option Nat
  maxDays : Option Int
deriving DecidableEq, Repr

/-- `CleanupResult` as in `auditCleanup.ts`. -/
structure CleanupResult where
  deletedCount : Nat
  keptCount : Nat
  skippedSnapshots : Nat
  documentsProcessed : Nat
deriving DecidableEq, Repr

/-- JavaScript `x || d` for an optional numeric config value: `undefined`
and `0` are falsy, so both fall back to the default. -/
def jsOrInt (v : Option Int) (d : Int) : Int :=
  match v with
  | none => d
  | some x => if x = 0 then d else x

/-- JavaScript `x || d` for an optional natural-valued config value. -/
def jsOrNat (v : Option Nat) (d : Nat) : Nat :=
  match v with
  | none => d
  | some x => if x = 0 then d else x

/-- Outcome of the classification loop in `cleanupDocumentAuditLogs`:
the two counters it increments plus the accumulated `toDelete` id list. -/
structure Classification where
  keptCount : Nat
  skippedSnapshots : Nat
  toDelete : List Nat
deriving DecidableEq, Repr

/-- The `for (let i = 0; ...)` classification loop of
`cleanupDocumentAuditLogs`, started at loop index `i`.  Rule order is exactly
the source's: snapshot, then `i < minVersions`, then the max-age cutoff, then
the sliding-window cutoff, else keep. -/
def classifyFrom (minVersions : Nat) (maxAgeCutoff windowCutoff : Int) :
    Nat → List AuditLogEntry → Classification
  | _, [] => ⟨0, 0, []⟩
  | i, entry :: rest =>
    let acc := classifyFrom minVersions maxAgeCutoff windowCutoff (i + 1) rest
    if entry.isSnapshot then ⟨acc.keptCount + 1, acc.skippedSnapshots + 1, acc.toDelete⟩
    else if i < minVersions then ⟨acc.keptCount + 1, acc.skippedSnapshots, acc.toDelete⟩
    else if entry.timestamp < maxAgeCutoff then
      ⟨acc.keptCount, acc.skippedSnapshots, entry.id :: acc.toDelete⟩
    else if entry.timestamp < windowCutoff then
      ⟨acc.keptCount, acc.skippedSnapshots, entry.id :: acc.toDelete⟩
    else ⟨acc.keptCount + 1, acc.skippedSnapshots, acc.toDelete⟩

/-- Classification performed by `cleanupDocumentAuditLogs` on the fetched
entry list (already sorted newest-first by the `-version` query): cutoffs are
`latest.timestamp - windowDays` and `now - maxDays`, with the source's
`|| 90` / `|| 10` / `|| 365` defaults. -/
def cleanupClassification (now : Int) (config : RetentionConfig)
    (entries : List AuditLogEntry) : Classification :=
  match entries with
  | [] => ⟨0, 0, []⟩
  | latest :: _ =>
    classifyFrom (jsOrNat config.minVersions 10)
      (now - jsOrInt config.maxDays 365)
      (latest.timestamp - jsOrInt config.windowDays 90) 0 entries

/-- The deletion loop at the end of `cleanupDocumentAuditLogs`: each
`payload.delete` either succeeds (the row with that id disappears and
`deletedCount` is incremented) or throws, in which case the surrounding
`catch` stops the loop with the counts accumulated so far. -/
def runDeletions (deleteFails : Nat → Bool) :
    List Nat → List AuditLogEntry → Nat × List AuditLogEntry
  | [], store => (0, store)
  | id :: rest, store =>
    if deleteFails id then (0, store)
    else
      let next := runDeletions deleteFails rest (store.filter (fun e => e.id ≠ id))
      (next.1 + 1, next.2)

/-- `cleanupDocumentAuditLogs` on the entries of one `(collection, documentId)`
pair, returning the `CleanupResult` and the audit store contents afterwards.
An empty fetch returns the initial result (`documentsProcessed = 1`). -/
def cleanupDocumentAuditLogs (deleteFails : Nat → Bool) (now : Int)
    (config : RetentionConfig) (entries : List AuditLogEntry) :
    CleanupResult × List AuditLogEntry :=
  match entries with
  | [] => (⟨0, 0, 0, 1⟩, [])
  | _ :: _ =>
    let cls := cleanupClassification now config entries
    let del := runDeletions deleteFails cls.toDelete entries
    (⟨del.1, cls.keptCount, cls.skippedSnapshots, 1⟩, del.2)

/-- Counters accumulated by the loop in `getCleanupPreview`. -/
structure PreviewCounts where
  deletedCount : Nat
  keptCount : Nat
  skippedSnapshots : Nat
deriving DecidableEq, Repr

/-- The classification loop of `getCleanupPreview` (the source duplicates the
loop, merging the two delete conditions with `||` and counting instead of
collecting ids). -/
def previewFrom (minVersions : Nat) (maxAgeCutoff windowCutoff : Int) :
    Nat → List AuditLogEntry → PreviewCounts
  | _, [] => ⟨0, 0, 0⟩
  | i, entry :: rest =>
    let acc := previewFrom minVersions maxAgeCutoff windowCutoff (i + 1) rest
    if entry.isSnapshot then
      ⟨acc.deletedCount, acc.keptCount + 1, acc.skippedSnapshots + 1⟩
    else if i < minVersions then
      ⟨acc.deletedCount, acc.keptCount + 1, acc.skippedSnapshots⟩
    else if entry.timestamp < maxAgeCutoff ∨ entry.timestamp < windowCutoff then
      ⟨acc.deletedCount + 1, acc.keptCount, acc.skippedSnapshots⟩
    else ⟨acc.deletedCount, acc.keptCount + 1, acc.skippedSnapshots⟩

/-- `getCleanupPreview`: same fetch and cutoffs as the cleanup path, but the
body issues no `payload.delete` call, so the store component is returned
untouched. -/
def getCleanupPreview (now : Int) (config : RetentionConfig)
    (entries : List AuditLogEntry) : CleanupResult × List AuditLogEntry :=
  match entries with
  | [] => (⟨0, 0, 0, 1⟩, entries)
  | latest :: _ =>
    let p := previewFrom (jsOrNat config.minVersions 10)
      (now - jsOrInt config.maxDays 365)
      (latest.timestamp - jsOrInt config.windowDays 90) 0 entries
    (⟨p.deletedCount, p.keptCount, p.skippedSnapshots, 1⟩, entries)

/-! ### Lemmas about the classification loops -/

theorem classifyFrom_skipped (minV : Nat) (mc wc : Int) (i : Nat)
    (es : List AuditLogEntry) :
    (classifyFrom minV mc wc i es).skippedSnapshots = es.countP (·.isSnapshot) := by
  induction es generalizing i with
  | nil => rfl
  | cons e rest ih =>
    by_cases hs : e.isSnapshot <;> by_cases hm : i < minV <;>
      by_cases h1 : e.timestamp < mc <;> by_cases h2 : e.timestamp < wc <;>
      simp [classifyFrom, hs, hm, h1, h2, ih, List.countP_cons]

theorem classifyFrom_skipped_le_kept (minV : Nat) (mc wc : Int) (i : Nat)
    (es : List AuditLogEntry) :
    (classifyFrom minV mc wc i es).skippedSnapshots
      ≤ (classifyFrom minV mc wc i es).keptCount := by
  induction es generalizing i with
  | nil => exact Nat.le_refl _
  | cons e rest ih =>
    have hih := ih (i + 1)
    by_cases hs : e.isSnapshot <;> by_cases hm : i < minV <;>
      by_cases h1 : e.timestamp < mc <;> by_cases h2 : e.timestamp < wc <;>
      simp [classifyFrom, hs, hm, h1, h2] <;> omega

theorem classifyFrom_toDelete_mem (minV : Nat) (mc wc : Int) (j : Nat)
    (es : List AuditLogEntry) (x : Nat)
    (hx : x ∈ (classifyFrom minV mc wc j es).toDelete) :
    ∃ k, ∃ h : k < es.length, (es.get ⟨k, h⟩).id = x ∧
      (es.get ⟨k, h⟩).isSnapshot = false ∧ minV ≤ j + k ∧
      ((es.get ⟨k, h⟩).timestamp < mc ∨ (es.get ⟨k, h⟩).timestamp < wc) := by
  induction es generalizing j with
  | nil => simp [classifyFrom] at hx
  | cons e rest ih =>
    have lift : x ∈ (classifyFrom minV mc wc (j + 1) rest).toDelete →
        ∃ k, ∃ h : k < (e :: rest).length, ((e :: rest).get ⟨k, h⟩).id = x ∧
          ((e :: rest).get ⟨k, h⟩).isSnapshot = false ∧ minV ≤ j + k ∧
          (((e :: rest).get ⟨k, h⟩).timestamp < mc ∨
            ((e :: rest).get ⟨k, h⟩).timestamp < wc) := by
      intro hx'
      obtain ⟨k, hk, p1, p2, p3, p4⟩ := ih (j + 1) hx'
      refine ⟨k + 1, Nat.succ_lt_succ hk, ?_, ?_, by omega, ?_⟩
      · exact p1
      · exact p2
      · exact p4
    have base : ∀ hx0 : x = e.id,
        ∀ hns : e.isSnapshot = false, ∀ hr : minV ≤ j,
        ∀ ha : e.timestamp < mc ∨ e.timestamp < wc,
        ∃ k, ∃ h : k < (e :: rest).length, ((e :: rest).get ⟨k, h⟩).id = x ∧
          ((e :: rest).get ⟨k, h⟩).isSnapshot = false ∧ minV ≤ j + k ∧
          (((e :: rest).get ⟨k, h⟩).timestamp < mc ∨
            ((e :: rest).get ⟨k, h⟩).timestamp < wc) := by
      intro hx0 hns hr ha
      exact ⟨0, Nat.succ_pos _, hx0.symm, hns, by omega, ha⟩
    by_cases hs : e.isSnapshot = true
    · exact lift (by simpa [classifyFrom, hs] using hx)
    · have hs' : e.isSnapshot = false := by simpa using hs
      by_cases hm : j < minV
      · exact lift (by simpa [classifyFrom, hs, hm] using hx)
      · by_cases h1 : e.timestamp < mc
        · have hx' : x = e.id ∨ x ∈ (classifyFrom minV mc wc (j + 1) rest).toDelete := by
            simpa [classifyFrom, hs, hm, h1] using hx
          cases hx' with
          | inl hxe => exact base hxe hs' (by omega) (Or.inl h1)
          | inr hmem => exact lift hmem
        · by_cases h2 : e.timestamp < wc
          · have hx' : x = e.id ∨ x ∈ (classifyFrom minV mc wc (j + 1) rest).toDelete := by
              simpa [classifyFrom, hs, hm, h1, h2] using hx
            cases hx' with
            | inl hxe => exact base hxe hs' (by omega) (Or.inr h2)
            | inr hmem => exact lift hmem
          · exact lift (by simpa [classifyFrom, hs, hm, h1, h2] using hx)

theorem classifyFrom_deletes (minV : Nat) (mc wc : Int) (j : Nat)
    (es : List AuditLogEntry) (k : Nat) (h : k < es.length)
    (hsnap : (es.get ⟨k, h⟩).isSnapshot = false)
    (hrank : minV ≤ j + k)
    (hage : (es.get ⟨k, h⟩).timestamp < mc ∨ (es.get ⟨k, h⟩).timestamp < wc) :
    (es.get ⟨k, h⟩).id ∈ (classifyFrom minV mc wc j es).toDelete := by
  induction es generalizing j k with
  | nil => exact absurd h (by simp)
  | cons e rest ih =>
    match k with
    | 0 =>
      have hsnap0 : e.isSnapshot = false := hsnap
      have hage0 : e.timestamp < mc ∨ e.timestamp < wc := hage
      have hm : ¬ j < minV := by omega
      show e.id ∈ (classifyFrom minV mc wc j (e :: rest)).toDelete
      by_cases h1 : e.timestamp < mc
      · simp [classifyFrom, hsnap0, hm, h1]
      · have h2 : e.timestamp < wc := by tauto
        simp [classifyFrom, hsnap0, hm, h1, h2]
    | k' + 1 =>
      have hlt : k' < rest.length := Nat.lt_of_succ_lt_succ h
      have hmem : (rest.get ⟨k', hlt⟩).id ∈
          (classifyFrom minV mc wc (j + 1) rest).toDelete :=
        ih (j + 1) k' hlt hsnap (by omega) hage
      simp only [List.get_eq_getElem] at hmem
      show (rest.get ⟨k', hlt⟩).id ∈ (classifyFrom minV mc wc j (e :: rest)).toDelete
      by_cases hs : e.isSnapshot = true <;> by_cases hm : j < minV <;>
        by_cases h1 : e.timestamp < mc <;> by_cases h2 : e.timestamp < wc <;>
        simp only [classifyFrom, hs, hm, h1, h2, if_true, if_false, Bool.not_eq_true,
          List.mem_cons] <;>
        simp [hs, hm, h1, h2, hmem]

theorem runDeletions_count_of_success (f : Nat → Bool) (ids : List Nat)
    (store : List AuditLogEntry) (h : ∀ id ∈ ids, f id = false) :
    (runDeletions f ids store).1 = ids.length := by
  induction ids generalizing store with
  | nil => rfl
  | cons id rest ih =>
    have hid : f id = false := h id (by simp)
    simp [runDeletions, hid, ih _ (fun x hx => h x (by simp [hx]))]

theorem runDeletions_mem (f : Nat → Bool) (ids : List Nat)
    (store : List AuditLogEntry) (e : AuditLogEntry) (he : e ∈ store)
    (hid : e.id ∉ ids) : e ∈ (runDeletions f ids store).2 := by
  induction ids generalizing store with
  | nil => exact he
  | cons id rest ih =>
    by_cases hf : f id
    · simpa [runDeletions, hf] using he
    · simp only [runDeletions, hf, if_false]
      exact ih _ (by simp [List.mem_filter, he]; intro hcontra; exact hid (by simp [hcontra]))
        (fun hmem => hid (by simp [hmem]))

theorem previewFrom_eq (minV : Nat) (mc wc : Int) (i : Nat)
    (es : List AuditLogEntry) :
    previewFrom minV mc wc i es =
      ⟨(classifyFrom minV mc wc i es).toDelete.length,
       (classifyFrom minV mc wc i es).keptCount,
       (classifyFrom minV mc wc i es).skippedSnapshots⟩ := by
  induction es generalizing i with
  | nil => rfl
  | cons e rest ih =>
    by_cases hs : e.isSnapshot <;> by_cases hm : i < minV <;>
      by_cases h1 : e.timestamp < mc <;> by_cases h2 : e.timestamp < wc <;>
      simp [classifyFrom, previewFrom, hs, hm, h1, h2, ih]

/-! ### Claim theorems for the retention engine -/

/-- C1: for every entry list, retention policy, `now` instant and deletion
oracle, an entry with `isSnapshot = true` is never classified for deletion and
survives `cleanupDocumentAuditLogs`; both the cleanup and the preview count
every snapshot entry as skipped-as-snapshot and as kept, regardless of its
recency rank and of its age relative to either cutoff. -/
theorem snapshot_entries_always_retained
    (deleteFails : Nat → Bool) (now : Int) (config : RetentionConfig)
    (entries : List AuditLogEntry)
    (hids : (entries.map (·.id)).Nodup)
    (e : AuditLogEntry) (he : e ∈ entries) (hsnap : e.isSnapshot = true) :
    e.id ∉ (cleanupClassification now config entries).toDelete ∧
    e ∈ (cleanupDocumentAuditLogs deleteFails now config entries).2 ∧
    (cleanupDocumentAuditLogs deleteFails now config entries).1.skippedSnapshots
      = entries.countP (·.isSnapshot) ∧
    (getCleanupPreview now config entries).1.skippedSnapshots
      = entries.countP (·.isSnapshot) ∧
    entries.countP (·.isSnapshot)
      ≤ (cleanupDocumentAuditLogs deleteFails now config entries).1.keptCount ∧
    entries.countP (·.isSnapshot)
      ≤ (getCleanupPreview now config entries).1.keptCount := by
  match entries, he with
  | latest :: rest, he =>
    have hnotdel : e.id ∉ (cleanupClassification now config (latest :: rest)).toDelete := by
      intro hmem
      obtain ⟨k, h, hid, hsnap', -, -⟩ :=
        classifyFrom_toDelete_mem _ _ _ _ _ _ hmem
      have hgetmem : (latest :: rest).get ⟨k, h⟩ ∈ latest :: rest := List.get_mem _ _ _
      have : (latest :: rest).get ⟨k, h⟩ = e :=
        List.inj_on_of_nodup_map hids hgetmem he hid
      rw [this] at hsnap'
      exact absurd (hsnap.symm.trans hsnap') (by decide)
    refine ⟨hnotdel, ?_, ?_, ?_, ?_, ?_⟩
    · exact runDeletions_mem _ _ _ _ he hnotdel
    · simpa [cleanupDocumentAuditLogs, cleanupClassification] using
        classifyFrom_skipped _ _ _ 0 (latest :: rest)
    · simp [getCleanupPreview, previewFrom_eq]
      simpa [cleanupClassification] using classifyFrom_skipped
        (jsOrNat config.minVersions 10) (now - jsOrInt config.maxDays 365)
        (latest.timestamp - jsOrInt config.windowDays 90) 0 (latest :: rest)
    · rw [show (cleanupDocumentAuditLogs deleteFails now config (latest :: rest)).1.keptCount
          = (cleanupClassification now config (latest :: rest)).keptCount from rfl]
      rw [← classifyFrom_skipped (jsOrNat config.minVersions 10)
        (now - jsOrInt config.maxDays 365)
        (latest.timestamp - jsOrInt config.windowDays 90) 0 (latest :: rest)]
      exact classifyFrom_skipped_le_kept _ _ _ _ _
    · simp only [getCleanupPreview, previewFrom_eq]
      rw [← classifyFrom_skipped (jsOrNat config.minVersions 10)
        (now - jsOrInt config.maxDays 365)
        (latest.timestamp - jsOrInt config.windowDays 90) 0 (latest :: rest)]
      exact classifyFrom_skipped_le_kept _ _ _ _ _

/-- Witness for C1 at a concrete input: a single very old snapshot entry with
rank beyond `minVersions` survives cleanup and is counted. -/
theorem snapshot_entries_always_retained_witness :
    ((⟨5, 1, -1000, true⟩ : AuditLogEntry)
        ∈ (cleanupDocumentAuditLogs (fun _ => false) 0 ⟨some 30, some 0, some 90⟩
            [⟨5, 1, -1000, true⟩]).2) ∧
    (cleanupDocumentAuditLogs (fun _ => false) 0 ⟨some 30, some 0, some 90⟩
        [⟨5, 1, -1000, true⟩]).1.skippedSnapshots = 1 :=
  ⟨(snapshot_entries_always_retained (fun _ => false) 0 ⟨some 30, some 0, some 90⟩
      [⟨5, 1, -1000, true⟩] (by decide) ⟨5, 1, -1000, true⟩ (by decide) (by decide)).2.1,
   by
    have h := (snapshot_entries_always_retained (fun _ => false) 0 ⟨some 30, some 0, some 90⟩
      [⟨5, 1, -1000, true⟩] (by decide) ⟨5, 1, -1000, true⟩ (by decide) (by decide)).2.2.1
    simpa using h⟩

theorem nodup_ids_index_eq (es : List AuditLogEntry)
    (hids : (es.map (·.id)).Nodup) (k1 k2 : Nat)
    (h1 : k1 < es.length) (h2 : k2 < es.length)
    (heq : (es.get ⟨k1, h1⟩).id = (es.get ⟨k2, h2⟩).id) : k1 = k2 := by
  have hm1 : k1 < (es.map (·.id)).length := by simpa using h1
  have hm2 : k2 < (es.map (·.id)).length := by simpa using h2
  have hget : getElem (es.map (·.id)) k1 hm1 = getElem (es.map (·.id)) k2 hm2 := by
    rw [List.getElem_map, List.getElem_map]
    simpa [List.get_eq_getElem] using heq
  exact (hids.getElem_inj_iff).mp hget

/-- Ten non-snapshot entries of one document, versions 10 down to 1, each one
day older than the next-newer one (newest first, as the `-version` sort
delivers them); ids chosen equal to versions. -/
def tenDailyEntries : List AuditLogEntry :=
  [⟨10, 10, 0, false⟩, ⟨9, 9, -1, false⟩, ⟨8, 8, -2, false⟩, ⟨7, 7, -3, false⟩,
   ⟨6, 6, -4, false⟩, ⟨5, 5, -5, false⟩, ⟨4, 4, -6, false⟩, ⟨3, 3, -7, false⟩,
   ⟨2, 2, -8, false⟩, ⟨1, 1, -9, false⟩]

/-- The policy `{minVersions := 3, windowDays := 30, maxDays := 90}`. -/
def tenDailyConfig : RetentionConfig := ⟨some 30, some 3, some 90⟩

/-- C2 counterexample: for the ten daily entries under
`{minVersions:3, windowDays:30, maxDays:90}` with `now` equal to the latest
timestamp, the code does not keep 3 and delete 7. -/
theorem retention_ten_daily_not_three_seven :
    ¬ ((cleanupDocumentAuditLogs (fun _ => false) 0 tenDailyConfig
          tenDailyEntries).1.keptCount = 3 ∧
       (cleanupDocumentAuditLogs (fun _ => false) 0 tenDailyConfig
          tenDailyEntries).1.deletedCount = 7) := by
  decide

/-- C2 (amended): for ten non-snapshot entries one day apart under
`{minVersions:3, windowDays:30, maxDays:90}` with `now` at the latest entry's
timestamp, every entry lies inside the 30-day sliding window, so the
classification keeps all 10 entries and deletes 0 (in cleanup and preview
alike, and the store is untouched). -/
theorem retention_ten_daily_all_kept :
    (cleanupDocumentAuditLogs (fun _ => false) 0 tenDailyConfig
        tenDailyEntries).1 = ⟨0, 10, 0, 1⟩ ∧
    (cleanupDocumentAuditLogs (fun _ => false) 0 tenDailyConfig
        tenDailyEntries).2 = tenDailyEntries ∧
    (getCleanupPreview 0 tenDailyConfig tenDailyEntries).1 = ⟨0, 10, 0, 1⟩ := by
  decide

/-- A single non-snapshot entry 100 days old, far beyond `maxDays = 90`. -/
def staleHeadEntry : AuditLogEntry := ⟨1, 1, -100, false⟩

/-- C3 counterexample: a non-snapshot entry older than `now - maxDays` whose
recency rank 0 is within `minVersions = 3` is kept, not deleted: the
`i < minVersions` check precedes the max-age check in the source. -/
theorem stale_entry_within_min_versions_kept :
    staleHeadEntry.isSnapshot = false ∧
    staleHeadEntry.timestamp < 0 - jsOrInt (some 90) 365 ∧
    (cleanupDocumentAuditLogs (fun _ => false) 0 ⟨some 30, some 3, some 90⟩
        [staleHeadEntry]).1.deletedCount = 0 ∧
    (cleanupDocumentAuditLogs (fun _ => false) 0 ⟨some 30, some 3, some 90⟩
        [staleHeadEntry]).1.keptCount = 1 ∧
    (cleanupDocumentAuditLogs (fun _ => false) 0 ⟨some 30, some 3, some 90⟩
        [staleHeadEntry]).2 = [staleHeadEntry] := by
  decide

/-- C3 (amended): a non-snapshot entry older than `now - maxDays` is classified
DELETE exactly when its recency rank is at least `minVersions`: at rank
`k ≥ minVersions` it joins the delete list regardless of the sliding window,
while (for duplicate-free ids) no entry at rank below `minVersions` is ever
classified DELETE — the minimum-retained-count rule takes precedence over the
absolute age ceiling. -/
theorem max_age_deletes_only_beyond_min_versions
    (now : Int) (config : RetentionConfig) (entries : List AuditLogEntry)
    (k : Nat) (h : k < entries.length)
    (hsnap : (entries.get ⟨k, h⟩).isSnapshot = false)
    (hrank : jsOrNat config.minVersions 10 ≤ k)
    (hage : (entries.get ⟨k, h⟩).timestamp < now - jsOrInt config.maxDays 365) :
    (entries.get ⟨k, h⟩).id ∈ (cleanupClassification now config entries).toDelete ∧
    ((entries.map (·.id)).Nodup →
      ∀ k', ∀ h' : k' < entries.length, k' < jsOrNat config.minVersions 10 →
        (entries.get ⟨k', h'⟩).id ∉ (cleanupClassification now config entries).toDelete) := by
  constructor
  · match entries, h with
    | e :: rest, h =>
      exact classifyFrom_deletes _ _ _ 0 _ k h hsnap (by omega) (Or.inl hage)
  · intro hids k' h' hk' hmem
    match entries, h' with
    | e :: rest, h' =>
      obtain ⟨k2, h2, p1, p2, p3, p4⟩ := classifyFrom_toDelete_mem _ _ _ _ _ _ hmem
      have : k2 = k' := nodup_ids_index_eq _ hids k2 k' h2 h' p1
      omega

/-- Witness for C3 (amended): four entries with `minVersions = 3`; the fourth
(rank 3) is 200 days old and is classified DELETE, while none of the first
three ranks is. -/
theorem max_age_deletes_only_beyond_min_versions_witness :
    (([⟨4, 4, 0, false⟩, ⟨3, 3, -1, false⟩, ⟨2, 2, -2, false⟩,
        ⟨1, 1, -200, false⟩] : List AuditLogEntry).get ⟨3, by decide⟩).id ∈
      (cleanupClassification 0 ⟨some 30, some 3, some 90⟩
        [⟨4, 4, 0, false⟩, ⟨3, 3, -1, false⟩, ⟨2, 2, -2, false⟩,
         ⟨1, 1, -200, false⟩]).toDelete :=
  (max_age_deletes_only_beyond_min_versions 0 ⟨some 30, some 3, some 90⟩
    [⟨4, 4, 0, false⟩, ⟨3, 3, -1, false⟩, ⟨2, 2, -2, false⟩, ⟨1, 1, -200, false⟩]
    3 (by decide) (by decide) (by decide) (by decide)).1

/-- C4: for every entry list, policy and `now`, when every deletion the
classification requests succeeds, `getCleanupPreview` returns exactly the
`CleanupResult` that `cleanupDocumentAuditLogs` returns, and the preview
leaves the audit store unchanged. -/
theorem preview_agrees_with_cleanup
    (deleteFails : Nat → Bool) (now : Int) (config : RetentionConfig)
    (entries : List AuditLogEntry)
    (hok : ∀ id ∈ (cleanupClassification now config entries).toDelete,
      deleteFails id = false) :
    (getCleanupPreview now config entries).1
      = (cleanupDocumentAuditLogs deleteFails now config entries).1 ∧
    (getCleanupPreview now config entries).2 = entries := by
  cases entries with
  | nil => exact ⟨rfl, rfl⟩
  | cons e rest =>
    refine ⟨?_, rfl⟩
    have hcount := runDeletions_count_of_success deleteFails
      (cleanupClassification now config (e :: rest)).toDelete (e :: rest) hok
    simp only [getCleanupPreview, cleanupDocumentAuditLogs, previewFrom_eq, hcount]
    simp [cleanupClassification]

/-- Witness for C4: on the ten daily entries with an all-succeeding deletion
oracle, preview and cleanup agree and the store is unchanged. -/
theorem preview_agrees_with_cleanup_witness :
    (getCleanupPreview 0 tenDailyConfig tenDailyEntries).1
      = (cleanupDocumentAuditLogs (fun _ => false) 0 tenDailyConfig
          tenDailyEntries).1 ∧
    (getCleanupPreview 0 tenDailyConfig tenDailyEntries).2 = tenDailyEntries :=
  preview_agrees_with_cleanup (fun _ => false) 0 tenDailyConfig tenDailyEntries
    (fun _ _ => rfl)

/-! ### JavaScript value model for `diffCalculator.ts`

Documents handled by the diff calculator are JSON-ish runtime values plus
`Date` objects and `undefined`.  `NaN` is split from the other numbers because
`NaN === NaN` is false; other numbers are modelled by integers, which is
faithful for everything the source does with them (strict equality and
counting).  Payload documents contain no functions or symbols, so those two
`serializeValue` branches are unreachable in the model. -/

inductive Value where
  | vNull : Value
  | vUndefined : Value
  | vNaN : Value
  | vNum : Int → Value
  | vStr : String → Value
  | vBool : Bool → Value
  | vDate : Int → Value
  | vArr : List Value → Value
  | vObj : List (String × Value) → Value
deriving Repr

/-- JavaScript strict equality `===` on modelled values: value equality on
primitives (`NaN === x` is always false, including `x = NaN`), and reference
equality on dates/arrays/objects — two structurally-given compounds are
distinct references, so `===` is false for them. -/
def strictEq : Value → Value → Bool
  | .vNull, .vNull => true
  | .vUndefined, .vUndefined => true
  | .vNum a, .vNum b => a == b
  | .vStr a, .vStr b => a == b
  | .vBool a, .vBool b => a == b
  | _, _ => false

/-- JavaScript loose equality `x == null`: true exactly for `null`/`undefined`. -/
def looseNull : Value → Bool
  | .vNull => true
  | .vUndefined => true
  | _ => false

/-- `isPlainObject` from the source: `constructor === Object`. -/
def isPlainObject : Value → Bool
  | .vObj _ => true
  | _ => false

/-- `Array.isArray`. -/
def isJsArray : Value → Bool
  | .vArr _ => true
  | _ => false

/-- Property access `obj[key]`: the binding for `key`, or `undefined` when the
key is absent. -/
def lookupJs (fields : List (String × Value)) (k : String) : Value :=
  match fields.find? (fun p => p.1 == k) with
  | some p => p.2
  | none => .vUndefined

/-- `Object.keys`, in insertion order. -/
def keysOf (fields : List (String × Value)) : List String := fields.map (·.1)

theorem sizeOf_lookupJs_le (fields : List (String × Value)) (k : String) :
    sizeOf (lookupJs fields k) ≤ sizeOf fields := by
  induction fields with
  | nil => simp [lookupJs, List.find?]
  | cons p rest ih =>
    by_cases hp : p.1 == k
    · obtain ⟨k0, v0⟩ := p
      simp only [lookupJs, List.find?, hp]
      simp only [List.cons.sizeOf_spec, Prod.mk.sizeOf_spec]
      omega
    · have : lookupJs (p :: rest) k = lookupJs rest k := by
        simp [lookupJs, List.find?, hp]
      rw [this]
      have : sizeOf rest ≤ sizeOf (p :: rest) := by
        simp only [List.cons.sizeOf_spec]; omega
      omega

mutual
/-- `deepEqual` from `diffCalculator.ts`: strict equality first, then the
null/undefined mismatch check, then Date-by-instant, then element-wise array
comparison (after a length check), then key-wise plain-object comparison
(after a key-count check), else false. -/
def deepEqual (v1 v2 : Value) : Bool :=
  if strictEq v1 v2 then true
  else if looseNull v1 || looseNull v2 then false
  else
    match v1, v2 with
    | .vDate t1, .vDate t2 => t1 == t2
    | .vArr a1, .vArr a2 => a1.length == a2.length && deepEqualElems a1 a2
    | .vObj f1, .vObj f2 =>
      (keysOf f1).length == (keysOf f2).length && deepEqualKeys (keysOf f1) f1 f2
    | _, _ => false
termination_by (sizeOf v1 + sizeOf v2, 0)
decreasing_by
all_goals simp_wf
all_goals apply Prod.Lex.left
all_goals omega

/-- `val1.every((item, index) => deepEqual(item, val2[index]))`: indices past
the end of `val2` read as `undefined`. -/
def deepEqualElems : List Value → List Value → Bool
  | [], _ => true
  | x :: xs, [] => deepEqual x .vUndefined && deepEqualElems xs []
  | x :: xs, y :: ys => deepEqual x y && deepEqualElems xs ys
termination_by a b => (sizeOf a + sizeOf b, 0)
decreasing_by
all_goals simp_wf
all_goals apply Prod.Lex.left
all_goals omega

/-- `keys1.every((key) => deepEqual(val1[key], val2[key]))`. -/
def deepEqualKeys : List String → List (String × Value) → List (String × Value) → Bool
  | [], _, _ => true
  | k :: ks, f1, f2 => deepEqual (lookupJs f1 k) (lookupJs f2 k) && deepEqualKeys ks f1 f2
termination_by ks f1 f2 => (sizeOf f1 + sizeOf f2 + 1, ks.length)
decreasing_by
· simp_wf
  have h1 := sizeOf_lookupJs_le f1 k
  have h2 := sizeOf_lookupJs_le f2 k
  apply Prod.Lex.left
  omega
· simp_wf
  apply Prod.Lex.right
  omega
end

/-- Abstraction of `Date.prototype.toISOString()`: a textual rendering of the
instant, injective in the instant; no claim depends on the exact ISO text. -/
def dateToText (t : Int) : String := "Date@" ++ toString t

/-- `serializeValue` from the source: `undefined` normalizes to `null`, dates
to their ISO text, oversized objects (over 50 keys) and arrays (over 100
items) to placeholder strings; everything else is stored verbatim. -/
def serializeValue (v : Value) : Value :=
  match v with
  | .vUndefined => .vNull
  | .vDate t => .vStr (dateToText t)
  | .vObj fields =>
    if 50 < fields.length then
      .vStr ("[Object with " ++ toString fields.length ++ " keys]")
    else v
  | .vArr elems =>
    if 100 < elems.length then
      .vStr ("[Array with " ++ toString elems.length ++ " items]")
    else v
  | _ => v

/-- `FieldChange` from `diffCalculator.ts`. -/
structure FieldChange where
  field : String
  oldValue : Value
  newValue : Value
  path : String
deriving Repr

/-- One entry of `flattenObject`'s result list. -/
structure FlatItem where
  field : String
  value : Value
  path : String
deriving Repr

/-- The decimal digit character for `d < 10`. -/
def digitChar (d : Nat) : Char := Char.ofNat (48 + d)

/-- Digit accumulator for the decimal rendering of a natural number; the
first argument is fuel (any value at least the digit count works). -/
def natDigitsFuel : Nat → Nat → List Char → List Char
  | 0, _, acc => acc
  | fuel + 1, n, acc =>
    if n = 0 then acc
    else natDigitsFuel fuel (n / 10) (digitChar (n % 10) :: acc)

/-- Decimal rendering of a natural number, as JavaScript template literals
render array indices (`${i}`). -/
def natToString (n : Nat) : String :=
  if n = 0 then "0" else ⟨natDigitsFuel (n + 1) n []⟩

/-- `new Set([...keys1, ...keys2])` iterated in insertion order: keep the
first occurrence of each key. -/
def insertUniq (acc : List String) (x : String) : List String :=
  if acc.contains x then acc else acc ++ [x]

/-- Union of two key lists with JavaScript `Set` iteration order. -/
def jsSetUnion (ks1 ks2 : List String) : List String :=
  (ks1 ++ ks2).foldl insertUniq []

/-- Array indexing `i < arr.length ? arr[i] : undefined`. -/
def arrGet (xs : List Value) (i : Nat) : Value := (xs.get? i).getD .vUndefined

theorem sizeOf_arrGet_le (xs : List Value) (i : Nat) :
    sizeOf (arrGet xs i) ≤ sizeOf xs := by
  induction xs generalizing i with
  | nil => cases i <;> simp [arrGet, List.get?]
  | cons x rest ih =>
    cases i with
    | zero =>
      simp only [arrGet, List.get?, Option.getD, List.cons.sizeOf_spec]
      omega
    | succ j =>
      have : arrGet (x :: rest) (j + 1) = arrGet rest j := rfl
      rw [this]
      have hx := ih j
      simp only [List.cons.sizeOf_spec]
      omega

mutual
/-- `flattenObject` from the source: walk `Object.keys` in order. -/
def flattenObject (fields : List (String × Value)) (parentPath : String)
    (excludeFields : List String) : List FlatItem :=
  flattenKeys (keysOf fields) fields parentPath excludeFields
termination_by (sizeOf fields + 1, 0, (keysOf fields).length + 1)

/-- The key loop of `flattenObject`: skip excluded and housekeeping keys,
then dispatch on the value. -/
def flattenKeys (ks : List String) (fields : List (String × Value))
    (parentPath : String) (excludeFields : List String) : List FlatItem :=
  match ks with
  | [] => []
  | k :: rest =>
    (if excludeFields.contains k then []
     else if k == "updatedAt" || k == "createdAt" || k == "id" then []
     else flattenValue k (lookupJs fields k)
       (if parentPath == "" then k else parentPath ++ "." ++ k) excludeFields)
    ++ flattenKeys rest fields parentPath excludeFields
termination_by (sizeOf fields + 1, 0, ks.length)
decreasing_by
all_goals
  simp_wf
  first
  | (apply Prod.Lex.right
     apply Prod.Lex.right
     omega)
  | (have h1 := sizeOf_lookupJs_le fields k
     apply Prod.Lex.left
     omega)

/-- Dispatch of `flattenObject` on one value: recurse into plain objects,
walk arrays element-wise, emit a serialized leaf otherwise. -/
def flattenValue (k : String) (v : Value) (currentPath : String)
    (excludeFields : List String) : List FlatItem :=
  match v with
  | .vObj f2 => flattenObject f2 currentPath excludeFields
  | .vArr elems => flattenElems k elems 0 currentPath excludeFields
  | _ => [⟨k, serializeValue v, currentPath⟩]
termination_by (sizeOf v, 1, 0)
decreasing_by
· simp_wf
  have he : 1 + sizeOf f2 = sizeOf f2 + 1 := by omega
  rw [he]
  apply Prod.Lex.right
  apply Prod.Lex.left
  omega
· simp_wf
  apply Prod.Lex.left
  omega

/-- The `value.forEach((item, index) => ...)` walk inside `flattenObject`. -/
def flattenElems (k : String) (items : List Value) (idx : Nat)
    (currentPath : String) (excludeFields : List String) : List FlatItem :=
  match items with
  | [] => []
  | item :: rest =>
    (match item with
     | .vObj f2 =>
       flattenObject f2 (currentPath ++ "[" ++ natToString idx ++ "]") excludeFields
     | _ => [⟨k ++ "[" ++ natToString idx ++ "]", serializeValue item,
               currentPath ++ "[" ++ natToString idx ++ "]"⟩])
    ++ flattenElems k rest (idx + 1) currentPath excludeFields
termination_by (sizeOf items, 0, 0)
end

mutual
/-- The main `calculateDiff` loop for two plain objects: iterate the union of
the key sets (JS `Set` order). -/
def diffObjects (oldDoc newDoc : List (String × Value))
    (excludeFields : List String) (parentPath : String) : List FieldChange :=
  diffKeys (jsSetUnion (keysOf oldDoc) (keysOf newDoc)) oldDoc newDoc
    excludeFields parentPath
termination_by (sizeOf oldDoc + sizeOf newDoc + 1, 0,
  (jsSetUnion (keysOf oldDoc) (keysOf newDoc)).length + 1)

/-- The per-key loop of `calculateDiff`: skip excluded and housekeeping keys,
then compare the two property values. -/
def diffKeys (ks : List String) (f1 f2 : List (String × Value))
    (excludeFields : List String) (parentPath : String) : List FieldChange :=
  match ks with
  | [] => []
  | k :: rest =>
    (if excludeFields.contains k then []
     else if k == "updatedAt" || k == "createdAt" || k == "id" then []
     else diffValue k (lookupJs f1 k) (lookupJs f2 k) excludeFields
       (if parentPath == "" then k else parentPath ++ "." ++ k))
    ++ diffKeys rest f1 f2 excludeFields parentPath
termination_by (sizeOf f1 + sizeOf f2 + 1, 0, ks.length)
decreasing_by
all_goals
  simp_wf
  first
  | (apply Prod.Lex.right
     apply Prod.Lex.right
     omega)
  | (have h1 := sizeOf_lookupJs_le f1 k
     have h2 := sizeOf_lookupJs_le f2 k
     apply Prod.Lex.left
     omega)

/-- The body of `calculateDiff` for one key: nothing on `deepEqual`, recursion
for two plain objects, `compareArrays` for two arrays, else one serialized
leaf change. -/
def diffValue (k : String) (oldValue newValue : Value)
    (excludeFields : List String) (currentPath : String) : List FieldChange :=
  if deepEqual oldValue newValue then []
  else
    match oldValue, newValue with
    | .vObj g1, .vObj g2 => diffObjects g1 g2 excludeFields currentPath
    | .vArr a1, .vArr a2 => compareArrays a1 a2 currentPath excludeFields
    | _, _ => [⟨k, serializeValue oldValue, serializeValue newValue, currentPath⟩]
termination_by (sizeOf oldValue + sizeOf newValue, 1, 0)

/-- `compareArrays` from the source: a synthetic `path.length` change when the
lengths differ, then an element-wise walk up to the longer length. -/
def compareArrays (oldArray newArray : List Value) (path : String)
    (excludeFields : List String) : List FieldChange :=
  (if oldArray.length ≠ newArray.length then
     [⟨path ++ ".length", .vNum oldArray.length, .vNum newArray.length,
        path ++ ".length"⟩]
   else [])
  ++ arrLoop oldArray newArray path excludeFields 0
      (max oldArray.length newArray.length)
termination_by (sizeOf oldArray + sizeOf newArray + 1, 0,
  max oldArray.length newArray.length + 1)

/-- The body of `compareArrays` for one index: nothing on `deepEqual`,
recursion into `calculateDiff` for two plain objects, else one serialized
leaf change at `path[i]` (used as both `field` and `path`). -/
def arrItemDiff (oldItem newItem : Value) (itemPath : String)
    (excludeFields : List String) : List FieldChange :=
  if deepEqual oldItem newItem then []
  else
    match oldItem, newItem with
    | .vObj g1, .vObj g2 => diffObjects g1 g2 excludeFields itemPath
    | _, _ => [⟨itemPath, serializeValue oldItem, serializeValue newItem,
                itemPath⟩]
termination_by (sizeOf oldItem + sizeOf newItem, 1, 0)

/-- The index loop of `compareArrays`: `rem` counts the remaining indices
(starting from `maxLength`); out-of-range reads are `undefined`. -/
def arrLoop (oldArray newArray : List Value) (path : String)
    (excludeFields : List String) (i rem : Nat) : List FieldChange :=
  match rem with
  | 0 => []
  | r + 1 =>
    arrItemDiff (arrGet oldArray i) (arrGet newArray i)
      (path ++ "[" ++ natToString i ++ "]") excludeFields
    ++ arrLoop oldArray newArray path excludeFields (i + 1) r
termination_by (sizeOf oldArray + sizeOf newArray + 1, 0, rem)
decreasing_by
all_goals simp_wf
all_goals
  first
  | (apply Prod.Lex.right
     apply Prod.Lex.right
     omega)
  | (have e1 := sizeOf_arrGet_le oldArray i
     have e2 := sizeOf_arrGet_le newArray i
     apply Prod.Lex.left
     omega)
end

/-- `calculateDiff` from `diffCalculator.ts`.  A document argument is `none`
for JavaScript `null`/`undefined` (the two falsy document values).  Nested
recursive invocations in the source always pass two plain objects, which this
dispatcher sends to `diffObjects`, exactly as the source's falsy checks do. -/
def calculateDiff (oldDoc newDoc : Option (List (String × Value)))
    (excludeFields : List String) (parentPath : String) : List FieldChange :=
  match oldDoc, newDoc with
  | none, none => []
  | none, some nd =>
    (flattenObject nd parentPath excludeFields).map fun it =>
      ⟨it.field, .vNull, it.value, it.path⟩
  | some od, none =>
    (flattenObject od parentPath excludeFields).map fun it =>
      ⟨it.field, it.value, .vNull, it.path⟩
  | some od, some nd => diffObjects od nd excludeFields parentPath

/-! ### Capture hooks: `auditCapture.ts`

Collaborator calls (`findByID`, the latest-version `find`, `create`) are
driven by explicit failure flags; a `true` flag means that call throws.  The
`try`-block of each hook is a separate `Except`-valued body, and the hook
itself is the `catch` wrapper around it.  The deferred `setImmediate` cleanup
runs outside the hook (its failures are caught separately) and is modelled by
the retention section above. -/

/-- JavaScript truthiness of a modelled value. -/
def jsTruthy : Value → Bool
  | .vNull => false
  | .vUndefined => false
  | .vNaN => false
  | .vNum n => n != 0
  | .vStr s => s != ""
  | .vBool b => b
  | .vDate _ => true
  | .vArr _ => true
  | .vObj _ => true

/-- JavaScript truthiness for an optional string (absent or empty is falsy),
as used by the `x || fallback` header accesses. -/
def truthyStr : Option String → Option String
  | some s => if s = "" then none else some s
  | none => none

/-- JavaScript `String(x)` for the values that occur as document ids
(primitives and dates); the compound renderings are abbreviated, ids are
never compounds. -/
def jsToString : Value → String
  | .vNull => "null"
  | .vUndefined => "undefined"
  | .vNaN => "NaN"
  | .vNum n => toString n
  | .vStr s => s
  | .vBool b => if b then "true" else "false"
  | .vDate t => dateToText t
  | .vArr _ => "[array]"
  | .vObj _ => "[object Object]"

/-- One persisted `audit-logs` row, with the fields the hooks write. -/
structure AuditRecord where
  collection : String
  documentId : String
  action : String
  userId : Option Nat
  userName : String
  timestamp : Int
  changes : List FieldChange
  ip : String
  userAgent : String
  version : Nat
  isSnapshot : Bool
deriving Repr

/-- `AuditConfig` from `auditCapture.ts`. -/
structure AuditConfig where
  excludeFields : List String
  excludeCollections : List String
  trackActions : List String
  windowDays : Option Int
  minVersions : Option Nat
  maxDays : Option Int

/-- Actor identity and client metadata read from the request. -/
structure RequestInfo where
  userId : Option Nat
  userEmail : Option String
  forwardedFor : Option String
  realIp : Option String
  remoteAddress : Option String
  userAgent : Option String

/-- `getClientIp`: first hop of `x-forwarded-for`, else `x-real-ip`, else the
connection's remote address (the two connection sources are merged into one
field), else the `'Unknown'` sentinel. -/
def getClientIp (req : RequestInfo) : String :=
  match truthyStr req.forwardedFor with
  | some fwd => ((fwd.splitOn (",")).headD fwd).trim
  | none =>
    match truthyStr req.realIp with
    | some r => r
    | none =>
      match truthyStr req.remoteAddress with
      | some a => a
      | none => "Unknown"

/-- `userName` resolution: `req.user?.email || 'System'`. -/
def resolveUserName (req : RequestInfo) : String :=
  match truthyStr req.userEmail with
  | some e => e
  | none => "System"

/-- `userAgent` resolution: `req.headers?.['user-agent'] || 'Unknown'`. -/
def resolveUserAgent (req : RequestInfo) : String :=
  match truthyStr req.userAgent with
  | some ua => ua
  | none => "Unknown"

/-- `isСriticalSnapshot`: a change of the `status` field to `'published'`, or
a missing before-state (creation). -/
def isCriticalSnapshot (newDoc : List (String × Value))
    (oldDoc : Option (List (String × Value)))
    (changes : List FieldChange) : Bool :=
  match changes.find? (fun c => c.field == "status") with
  | some statusChange =>
    if strictEq statusChange.newValue (.vStr "published") then true
    else oldDoc.isNone
  | none => oldDoc.isNone

/-- The `where` clause of the hooks' audit queries: the entries stored for
one `(collection, documentId)` pair. -/
def matchingEntries (store : List AuditRecord) (coll docId : String) :
    List AuditRecord :=
  store.filter fun e => e.collection == coll && e.documentId == docId

/-- The latest-version query
`find({collection:'audit-logs', where:…, sort:'-version', limit:1})`: the
maximal version among the pair's entries, `none` when there are none. -/
def findLatestVersion (store : List AuditRecord) (coll docId : String) :
    Option Nat :=
  match (matchingEntries store coll docId).map (·.version) with
  | [] => none
  | v :: vs => some (vs.foldl max v)

/-- `latestAudit.docs.length > 0 ? docs[0].version + 1 : 1`. -/
def nextVersion (store : List AuditRecord) (coll docId : String) : Nat :=
  match findLatestVersion store coll docId with
  | some v => v + 1
  | none => 1

/-- All inputs of one afterChange invocation: hook arguments, request data,
the audit store contents, and the failure oracle for the two collaborator
calls inside the `try` block. -/
structure AfterChangeEnv where
  collectionSlug : String
  excludeFields : List String
  config : AuditConfig
  operation : String
  doc : List (String × Value)
  previousDoc : Option (List (String × Value))
  contextSnapshot : Option (List (String × Value))
  req : RequestInfo
  now : Int
  store : List AuditRecord
  findLatestFails : Bool
  insertFails : Bool

/-- `originalDoc` resolution: the host-supplied `previousDoc`, else the
context snapshot stashed by the beforeChange hook. -/
def resolveOriginal (env : AfterChangeEnv) :
    Option (List (String × Value)) :=
  match env.previousDoc with
  | some d => some d
  | none => env.contextSnapshot

/-- The `try` block of the afterChange hook: diff, skip-on-empty-update,
metadata resolution, latest-version query, insert.  `Except.error` is a
thrown collaborator exception. -/
def afterChangeBody (env : AfterChangeEnv) (action : String) :
    Except Unit (List AuditRecord) :=
  let originalDoc := resolveOriginal env
  let changes := calculateDiff originalDoc (some env.doc) env.excludeFields ""
  if changes.length = 0 ∧ env.operation = "update" then .ok env.store
  else
    let docId := jsToString (lookupJs env.doc ("id"))
    if env.findLatestFails then .error ()
    else if env.insertFails then .error ()
    else
      .ok (⟨env.collectionSlug, docId, action, env.req.userId,
        resolveUserName env.req, env.now, changes, getClientIp env.req,
        resolveUserAgent env.req, nextVersion env.store env.collectionSlug docId,
        isCriticalSnapshot env.doc originalDoc changes⟩ :: env.store)

/-- What an afterChange hook invocation returns to the host: the document it
must pass through, plus the audit store afterwards. -/
structure HookOutcome where
  doc : List (String × Value)
  store : List AuditRecord

/-- `createAfterChangeHook`: self-collection and untracked-action passthrough,
then the `try` body with a `catch` that logs and returns the document. -/
def createAfterChangeHook (env : AfterChangeEnv) : HookOutcome :=
  if env.collectionSlug = "audit-logs" then ⟨env.doc, env.store⟩
  else
    let action := if env.operation = "create" then "create" else "update"
    if ¬ env.config.trackActions.contains action then ⟨env.doc, env.store⟩
    else
      match afterChangeBody env action with
      | .ok store2 => ⟨env.doc, store2⟩
      | .error _ => ⟨env.doc, env.store⟩

/-- All inputs of one beforeDelete invocation.  `findByIdFails` models the
initial `findByID` throwing (e.g. not-found); `fetchedDoc` is what it returns
otherwise. -/
structure BeforeDeleteEnv where
  collectionSlug : String
  config : AuditConfig
  id : Value
  fetchedDoc : List (String × Value)
  req : RequestInfo
  now : Int
  store : List AuditRecord
  findByIdFails : Bool
  findLatestFails : Bool
  insertFails : Bool

/-- The `try` block of the beforeDelete hook: fetch the final state, diff
against `null`, query the latest version, insert with `action: 'delete'` and
`isSnapshot: true`. -/
def beforeDeleteBody (env : BeforeDeleteEnv) : Except Unit (List AuditRecord) :=
  if env.findByIdFails then .error ()
  else
    let changes := calculateDiff (some env.fetchedDoc) none
      env.config.excludeFields ""
    let docId := jsToString env.id
    if env.findLatestFails then .error ()
    else if env.insertFails then .error ()
    else
      .ok (⟨env.collectionSlug, docId, "delete", env.req.userId,
        resolveUserName env.req, env.now, changes, getClientIp env.req,
        resolveUserAgent env.req, nextVersion env.store env.collectionSlug docId,
        true⟩ :: env.store)

/-- `createBeforeDeleteHook`: passthrough guards, then the `try` body with a
`catch` that logs and lets the deletion proceed. The hook returns `void`; its
observable effect is the store afterwards. -/
def createBeforeDeleteHook (env : BeforeDeleteEnv) : List AuditRecord :=
  if env.collectionSlug = "audit-logs" then env.store
  else if ¬ env.config.trackActions.contains "delete" then env.store
  else
    match beforeDeleteBody env with
    | .ok store2 => store2
    | .error _ => env.store

/-- Inputs of one beforeChange invocation: `fetchResult` is what `findByID`
returns, `Except.error` when it throws. -/
structure BeforeChangeEnv where
  collectionSlug : String
  config : AuditConfig
  operation : String
  data : List (String × Value)
  hasContext : Bool
  contextId : Value
  fetchResult : Except Unit (List (String × Value))

/-- `createBeforeChangeHook`: always returns `data`; on a tracked update with
a request context it resolves the original id, fetches the current state and
stashes it (the second component models the context stash, `none` when
nothing was stashed); a fetch failure is logged and swallowed. -/
def createBeforeChangeHook (env : BeforeChangeEnv) :
    (List (String × Value)) × Option (List (String × Value)) :=
  if env.collectionSlug = "audit-logs" then (env.data, none)
  else
    let action := if env.operation = "create" then "create" else "update"
    if ¬ env.config.trackActions.contains action then (env.data, none)
    else if env.operation = "update" ∧ env.hasContext then
      let originalId :=
        if (keysOf env.data).contains "id" then lookupJs env.data ("id")
        else env.contextId
      if jsTruthy originalId then
        match env.fetchResult with
        | .ok original => (env.data, some original)
        | .error _ => (env.data, none)
      else (env.data, none)
    else (env.data, none)

/-! ### Version-assignment lemmas and claim theorems for the hooks -/

theorem foldl_max_bounds (v : Nat) (vs : List Nat) :
    v ≤ vs.foldl max v ∧ ∀ x ∈ vs, x ≤ vs.foldl max v := by
  induction vs generalizing v with
  | nil => simp
  | cons y ys ih =>
    have h := ih (max v y)
    refine ⟨le_trans (le_max_left v y) h.1, ?_⟩
    intro x hx
    rcases List.mem_cons.mp hx with rfl | hx2
    · exact le_trans (le_max_right v x) h.1
    · exact h.2 x hx2

theorem foldl_max_mem (v : Nat) (vs : List Nat) :
    vs.foldl max v ∈ v :: vs := by
  induction vs generalizing v with
  | nil => simp
  | cons y ys ih =>
    have h := ih (max v y)
    simp only [List.foldl_cons]
    rcases List.mem_cons.mp h with he | hmem
    · rcases Nat.le_total v y with hvy | hyv
      · have hmax : max v y = y := by omega
        rw [he, hmax]
        simp
      · have hmax : max v y = v := by omega
        rw [he, hmax]
        simp
    · simp [hmem]

theorem version_lt_nextVersion (store : List AuditRecord) (coll docId : String)
    (e : AuditRecord) (he : e ∈ matchingEntries store coll docId) :
    e.version < nextVersion store coll docId := by
  have hv : e.version ∈ (matchingEntries store coll docId).map (·.version) :=
    List.mem_map_of_mem _ he
  unfold nextVersion findLatestVersion
  cases hm : (matchingEntries store coll docId).map (·.version) with
  | nil => rw [hm] at hv; exact absurd hv (by simp)
  | cons v vs =>
    rw [hm] at hv
    have hb := foldl_max_bounds v vs
    rcases List.mem_cons.mp hv with rfl | hv2
    · simpa using Nat.lt_succ_of_le hb.1
    · simpa using Nat.lt_succ_of_le (hb.2 _ hv2)

theorem one_le_nextVersion (store : List AuditRecord) (coll docId : String) :
    1 ≤ nextVersion store coll docId := by
  unfold nextVersion
  cases findLatestVersion store coll docId <;> simp

theorem nextVersion_of_empty (store : List AuditRecord) (coll docId : String)
    (h : matchingEntries store coll docId = []) :
    nextVersion store coll docId = 1 := by
  unfold nextVersion findLatestVersion
  rw [h]
  rfl

theorem nextVersion_attained (store : List AuditRecord) (coll docId : String)
    (h : matchingEntries store coll docId ≠ []) :
    ∃ e ∈ matchingEntries store coll docId,
      nextVersion store coll docId = e.version + 1 := by
  unfold nextVersion findLatestVersion
  cases hm : (matchingEntries store coll docId).map (·.version) with
  | nil =>
    exact absurd (List.map_eq_nil_iff.mp hm) h
  | cons v vs =>
    have hmem : vs.foldl max v ∈ v :: vs := foldl_max_mem v vs
    rw [← hm] at hmem
    obtain ⟨e, hemem, hev⟩ := List.mem_map.mp hmem
    exact ⟨e, hemem, by simp [hev]⟩

/-- Per-pair version lists (in store order, newest first) are strictly
decreasing — equivalently: versions within a pair are unique and each newly
inserted entry carries the largest version. -/
def versionsDescending (store : List AuditRecord) : Prop :=
  ∀ coll docId,
    ((matchingEntries store coll docId).map (·.version)).Pairwise (fun a b => b < a)

theorem versionsDescending_insert (store : List AuditRecord) (rec : AuditRecord)
    (hgt : ∀ e ∈ matchingEntries store rec.collection rec.documentId,
      e.version < rec.version)
    (hinv : versionsDescending store) : versionsDescending (rec :: store) := by
  intro coll docId
  by_cases hmatch : (rec.collection == coll && rec.documentId == docId) = true
  · have hcoll : rec.collection = coll := by
      have := (Bool.and_eq_true _ _).mp hmatch
      exact beq_iff_eq.mp this.1
    have hdoc : rec.documentId = docId := by
      have := (Bool.and_eq_true _ _).mp hmatch
      exact beq_iff_eq.mp this.2
    have hfil : matchingEntries (rec :: store) coll docId
        = rec :: matchingEntries store coll docId := by
      simp [matchingEntries, List.filter_cons, hmatch]
    rw [hfil]
    simp only [List.map_cons, List.pairwise_cons]
    constructor
    · intro v hv
      obtain ⟨e, hemem, hev⟩ := List.mem_map.mp hv
      rw [← hev]
      apply hgt
      rw [hcoll, hdoc]
      exact hemem
    · exact hinv coll docId
  · have hfil : matchingEntries (rec :: store) coll docId
        = matchingEntries store coll docId := by
      simp only [matchingEntries, List.filter_cons]
      rw [if_neg hmatch]
    rw [hfil]
    exact hinv coll docId

/-- C8: whenever the post-mutation hook persists an entry (its guards pass,
the diff is not an empty-update skip, and neither collaborator call fails),
and whenever the pre-deletion hook persists an entry, the entry's version is
one more than the highest version stored for the same
`(collection, documentId)` pair — version 1 when the pair has no entries —
hence positive and strictly greater than every existing version of the pair,
and the per-pair strict-monotonicity invariant is preserved, which under
sequential execution makes versions unique and strictly increasing. -/
theorem hooks_assign_next_version :
    (∀ env : AfterChangeEnv,
      env.collectionSlug ≠ "audit-logs" →
      env.config.trackActions.contains
        (if env.operation = "create" then "create" else "update") = true →
      env.findLatestFails = false → env.insertFails = false →
      ¬ ((calculateDiff (resolveOriginal env) (some env.doc)
            env.excludeFields "").length = 0 ∧ env.operation = "update") →
      ∃ rec, createAfterChangeHook env = ⟨env.doc, rec :: env.store⟩ ∧
        rec.collection = env.collectionSlug ∧
        rec.documentId = jsToString (lookupJs env.doc ("id")) ∧
        rec.version = nextVersion env.store env.collectionSlug
          (jsToString (lookupJs env.doc ("id"))) ∧
        1 ≤ rec.version ∧
        (∀ e ∈ matchingEntries env.store rec.collection rec.documentId,
          e.version < rec.version) ∧
        (matchingEntries env.store rec.collection rec.documentId = [] →
          rec.version = 1) ∧
        (matchingEntries env.store rec.collection rec.documentId ≠ [] →
          ∃ e ∈ matchingEntries env.store rec.collection rec.documentId,
            rec.version = e.version + 1) ∧
        (versionsDescending env.store → versionsDescending (rec :: env.store))) ∧
    (∀ env : BeforeDeleteEnv,
      env.collectionSlug ≠ "audit-logs" →
      env.config.trackActions.contains "delete" = true →
      env.findByIdFails = false → env.findLatestFails = false →
      env.insertFails = false →
      ∃ rec, createBeforeDeleteHook env = rec :: env.store ∧
        rec.collection = env.collectionSlug ∧
        rec.documentId = jsToString env.id ∧
        rec.version = nextVersion env.store env.collectionSlug (jsToString env.id) ∧
        1 ≤ rec.version ∧
        (∀ e ∈ matchingEntries env.store rec.collection rec.documentId,
          e.version < rec.version) ∧
        (matchingEntries env.store rec.collection rec.documentId = [] →
          rec.version = 1) ∧
        (matchingEntries env.store rec.collection rec.documentId ≠ [] →
          ∃ e ∈ matchingEntries env.store rec.collection rec.documentId,
            rec.version = e.version + 1) ∧
        (versionsDescending env.store → versionsDescending (rec :: env.store))) := by
  constructor
  · intro env h1 h2 h3 h4 h5
    refine ⟨⟨env.collectionSlug, jsToString (lookupJs env.doc ("id")),
      (if env.operation = "create" then "create" else "update"), env.req.userId,
      resolveUserName env.req, env.now,
      calculateDiff (resolveOriginal env) (some env.doc) env.excludeFields "",
      getClientIp env.req, resolveUserAgent env.req,
      nextVersion env.store env.collectionSlug (jsToString (lookupJs env.doc ("id"))),
      isCriticalSnapshot env.doc (resolveOriginal env)
        (calculateDiff (resolveOriginal env) (some env.doc) env.excludeFields "")⟩,
      ?_, rfl, rfl, rfl, ?_, ?_, ?_, ?_, ?_⟩
    · have h2m : (if env.operation = "create" then "create" else "update")
          ∈ env.config.trackActions := by simpa using h2
      simp [createAfterChangeHook, afterChangeBody, h1, h2m, h3, h4, if_neg h5]
    · exact one_le_nextVersion _ _ _
    · intro e he
      exact version_lt_nextVersion _ _ _ e he
    · intro hemp
      exact nextVersion_of_empty _ _ _ hemp
    · intro hne
      obtain ⟨e, hemem, hev⟩ := nextVersion_attained _ _ _ hne
      exact ⟨e, hemem, hev⟩
    · intro hinv
      exact versionsDescending_insert _ _
        (fun e he => version_lt_nextVersion _ _ _ e he) hinv
  · intro env h1 h2 h3 h4 h5
    refine ⟨⟨env.collectionSlug, jsToString env.id, "delete", env.req.userId,
      resolveUserName env.req, env.now,
      calculateDiff (some env.fetchedDoc) none env.config.excludeFields "",
      getClientIp env.req, resolveUserAgent env.req,
      nextVersion env.store env.collectionSlug (jsToString env.id), true⟩,
      ?_, rfl, rfl, rfl, ?_, ?_, ?_, ?_, ?_⟩
    · have h2m : "delete" ∈ env.config.trackActions := by simpa using h2
      simp [createBeforeDeleteHook, beforeDeleteBody, h1, h2m, h3, h4, h5]
    · exact one_le_nextVersion _ _ _
    · intro e he
      exact version_lt_nextVersion _ _ _ e he
    · intro hemp
      exact nextVersion_of_empty _ _ _ hemp
    · intro hne
      obtain ⟨e, hemem, hev⟩ := nextVersion_attained _ _ _ hne
      exact ⟨e, hemem, hev⟩
    · intro hinv
      exact versionsDescending_insert _ _
        (fun e he => version_lt_nextVersion _ _ _ e he) hinv

/-- Request data used by the concrete hook witnesses. -/
def wReq : RequestInfo := ⟨some 1, some "a@b.c", none, none, some "127.0.0.1", some "UA"⟩

/-- Config tracking all three actions, used by the concrete hook witnesses. -/
def wConfig : AuditConfig :=
  ⟨[], ["audit-logs"], ["create", "update", "delete"], none, none, none⟩

/-- A store holding one version-1 entry for `(posts, 1)`. -/
def wStore : List AuditRecord :=
  [⟨"posts", "1", "create", some 1, "a@b.c", 0, [], "ip", "UA", 1, true⟩]

/-- A tracked update of document `posts/1` that changes `title`. -/
def wAfterEnv : AfterChangeEnv :=
  ⟨"posts", [], wConfig, "update", [("id", .vNum 1), ("title", .vStr "B")],
   some [("id", .vNum 1), ("title", .vStr "A")], none, wReq, 5, wStore,
   false, false⟩

/-- A tracked deletion of document `posts/1`. -/
def wDeleteEnv : BeforeDeleteEnv :=
  ⟨"posts", wConfig, .vNum 1, [("title", .vStr "B")], wReq, 9, wStore,
   false, false, false⟩

/-- Witness for C8: on the concrete update and deletion environments above
(store already holding version 1), both hooks prepend an entry with a
positive version. -/
theorem hooks_assign_next_version_witness :
    (∃ rec, createAfterChangeHook wAfterEnv = ⟨wAfterEnv.doc, rec :: wAfterEnv.store⟩ ∧
      rec.version = nextVersion wAfterEnv.store "posts"
        (jsToString (lookupJs wAfterEnv.doc ("id"))) ∧ 1 ≤ rec.version) ∧
    (∃ rec, createBeforeDeleteHook wDeleteEnv = rec :: wDeleteEnv.store ∧
      rec.version = nextVersion wDeleteEnv.store "posts" (jsToString wDeleteEnv.id) ∧
      1 ≤ rec.version) := by
  constructor
  · obtain ⟨rec, hhook, hcoll, hdoc, hver, hpos, -⟩ :=
      hooks_assign_next_version.1 wAfterEnv (by decide) (by decide) rfl rfl
        (by
          intro hcon
          have hlen := hcon.1
          simp [wAfterEnv, resolveOriginal, calculateDiff, diffObjects, diffKeys,
            diffValue, deepEqual, strictEq, looseNull, jsSetUnion, insertUniq,
            keysOf, lookupJs, List.find?, serializeValue] at hlen)
    exact ⟨rec, by simpa [wAfterEnv] using hhook, by simpa [wAfterEnv] using hver, hpos⟩
  · obtain ⟨rec, hhook, hcoll, hdoc, hver, hpos, -⟩ :=
      hooks_assign_next_version.2 wDeleteEnv (by decide) (by decide) rfl rfl rfl
    exact ⟨rec, hhook, by simpa [wDeleteEnv] using hver, hpos⟩

theorem afterChangeBody_fail (env : AfterChangeEnv) (action : String)
    (hfail : env.findLatestFails = true ∨ env.insertFails = true) :
    afterChangeBody env action = .ok env.store ∨
    afterChangeBody env action = .error () := by
  simp only [afterChangeBody]
  split_ifs with hskip hlat hins
  · exact Or.inl rfl
  · exact Or.inr rfl
  · exact Or.inr rfl
  · rcases hfail with hf | hf
    · exact absurd hf (by simpa using hlat)
    · exact absurd hf (by simpa using hins)

theorem beforeDeleteBody_fail (env : BeforeDeleteEnv)
    (hfail : env.findByIdFails = true ∨ env.findLatestFails = true ∨
      env.insertFails = true) :
    beforeDeleteBody env = .error () := by
  unfold beforeDeleteBody
  rcases hfail with hf | hf | hf
  · rw [hf]
    simp
  · rw [hf]
    by_cases h1 : env.findByIdFails <;> simp [h1]
  · rw [hf]
    by_cases ha : env.findByIdFails <;> by_cases hb : env.findLatestFails <;>
      simp [ha, hb]

/-- C9: the post-mutation hook always returns the mutated document unchanged;
when the latest-version lookup or the audit insert throws, the store is left
untouched (the error is caught); the pre-mutation hook always returns its
`data` argument (a before-state fetch failure is swallowed); and the
pre-deletion hook returns normally with the store untouched whenever any of
its three collaborator calls throws — no audit-path error reaches the caller
of the underlying mutation. -/
theorem audit_failures_never_propagate :
    (∀ env : AfterChangeEnv, (createAfterChangeHook env).doc = env.doc) ∧
    (∀ env : AfterChangeEnv,
      env.findLatestFails = true ∨ env.insertFails = true →
      (createAfterChangeHook env).store = env.store) ∧
    (∀ env : BeforeChangeEnv, (createBeforeChangeHook env).1 = env.data) ∧
    (∀ env : BeforeDeleteEnv,
      env.findByIdFails = true ∨ env.findLatestFails = true ∨
        env.insertFails = true →
      createBeforeDeleteHook env = env.store) := by
  refine ⟨?_, ?_, ?_, ?_⟩
  · intro env
    simp only [createAfterChangeHook]
    split_ifs <;> first
      | rfl
      | (split <;> rfl)
  · intro env hfail
    simp only [createAfterChangeHook]
    split_ifs <;> first
      | rfl
      | (rcases afterChangeBody_fail env _ hfail with hb | hb <;> rw [hb])
  · intro env
    simp only [createBeforeChangeHook]
    split_ifs <;> first
      | rfl
      | (split <;> rfl)
  · intro env hfail
    simp only [createBeforeDeleteHook]
    split_ifs <;> first
      | rfl
      | rw [beforeDeleteBody_fail env hfail]

/-- Witness for C9: concrete failing environments — the update hook with a
throwing latest-version lookup returns the document and leaves the store
alone; the deletion hook with a throwing `findByID` leaves the store alone. -/
theorem audit_failures_never_propagate_witness :
    (createAfterChangeHook
        ⟨"posts", [], wConfig, "update", [("id", .vNum 1)], none, none, wReq,
          5, wStore, true, false⟩).doc = [("id", .vNum 1)] ∧
    (createAfterChangeHook
        ⟨"posts", [], wConfig, "update", [("id", .vNum 1)], none, none, wReq,
          5, wStore, true, false⟩).store = wStore ∧
    createBeforeDeleteHook
        ⟨"posts", wConfig, .vNum 1, [], wReq, 9, wStore, true, false, false⟩
      = wStore :=
  ⟨audit_failures_never_propagate.1 _,
   audit_failures_never_propagate.2.1 _ (Or.inl rfl),
   audit_failures_never_propagate.2.2.2 _ (Or.inl rfl)⟩

/-- C10: a tracked create whose computed diff is empty still persists an
audit entry — with action `create`, an empty changes list, and the next
version — because the skip-on-empty-diff guard additionally requires the
operation to be `update`. -/
theorem create_with_empty_diff_still_audited
    (env : AfterChangeEnv)
    (hop : env.operation = "create")
    (h1 : env.collectionSlug ≠ "audit-logs")
    (h2 : env.config.trackActions.contains "create" = true)
    (h3 : env.findLatestFails = false) (h4 : env.insertFails = false)
    (hdiff : calculateDiff (resolveOriginal env) (some env.doc)
      env.excludeFields "" = []) :
    createAfterChangeHook env = ⟨env.doc,
      ⟨env.collectionSlug, jsToString (lookupJs env.doc ("id")), "create",
        env.req.userId, resolveUserName env.req, env.now, [],
        getClientIp env.req, resolveUserAgent env.req,
        nextVersion env.store env.collectionSlug
          (jsToString (lookupJs env.doc ("id"))),
        isCriticalSnapshot env.doc (resolveOriginal env) []⟩ :: env.store⟩ := by
  have h2m : "create" ∈ env.config.trackActions := by simpa using h2
  simp [createAfterChangeHook, afterChangeBody, h1, hop, h2m, h3, h4, hdiff]

/-- Witness for C10: creating a document whose only field is the housekeeping
`id` yields an empty diff, yet an entry with action `create`, empty changes,
and version 1 on an empty store is persisted. -/
theorem create_with_empty_diff_still_audited_witness :
    createAfterChangeHook
        ⟨"posts", [], wConfig, "create", [("id", .vNum 7)], none, none, wReq,
          3, [], false, false⟩
      = ⟨[("id", .vNum 7)],
          [⟨"posts", "7", "create", some 1, "a@b.c", 3, [], "127.0.0.1", "UA",
            1, true⟩]⟩ := by
  have h := create_with_empty_diff_still_audited
    ⟨"posts", [], wConfig, "create", [("id", .vNum 7)], none, none, wReq,
      3, [], false, false⟩
    rfl (by decide) (by decide) rfl rfl
    (by simp [resolveOriginal, calculateDiff, flattenObject, flattenKeys,
      flattenValue, keysOf])
  rw [h]
  rfl

/-! ### C6: `diff(X, X)` -/

mutual
/-- No `NaN` occurs anywhere in the value. -/
def nanFree : Value → Bool
  | .vNaN => false
  | .vArr elems => nanFreeElems elems
  | .vObj fields => nanFreeFields fields
  | _ => true

/-- No `NaN` occurs in any element. -/
def nanFreeElems : List Value → Bool
  | [] => true
  | x :: xs => nanFree x && nanFreeElems xs

/-- No `NaN` occurs in any field value. -/
def nanFreeFields : List (String × Value) → Bool
  | [] => true
  | p :: ps => nanFree p.2 && nanFreeFields ps
end

theorem nanFreeElems_mem (elems : List Value) (h : nanFreeElems elems = true)
    (x : Value) (hx : x ∈ elems) : nanFree x = true := by
  induction elems with
  | nil => exact absurd hx (by simp)
  | cons y ys ih =>
    rw [nanFreeElems, Bool.and_eq_true] at h
    rcases List.mem_cons.mp hx with rfl | hx2
    · exact h.1
    · exact ih h.2 hx2

theorem nanFreeFields_mem (fields : List (String × Value))
    (h : nanFreeFields fields = true) (p : String × Value) (hp : p ∈ fields) :
    nanFree p.2 = true := by
  induction fields with
  | nil => exact absurd hp (by simp)
  | cons q qs ih =>
    rw [nanFreeFields, Bool.and_eq_true] at h
    rcases List.mem_cons.mp hp with rfl | hp2
    · exact h.1
    · exact ih h.2 hp2

theorem lookupJs_mem_or_undefined (f : List (String × Value)) (k : String) :
    lookupJs f k = .vUndefined ∨ ∃ p ∈ f, lookupJs f k = p.2 := by
  induction f with
  | nil => exact Or.inl rfl
  | cons p rest ih =>
    by_cases hp : p.1 == k
    · right
      exact ⟨p, by simp, by simp [lookupJs, List.find?, hp]⟩
    · have heq : lookupJs (p :: rest) k = lookupJs rest k := by
        simp [lookupJs, List.find?, hp]
      rw [heq]
      rcases ih with h | ⟨q, hq, hqe⟩
      · exact Or.inl h
      · exact Or.inr ⟨q, by simp [hq], hqe⟩

theorem nanFree_lookup (f : List (String × Value)) (k : String)
    (hf : nanFreeFields f = true) : nanFree (lookupJs f k) = true := by
  rcases lookupJs_mem_or_undefined f k with h | ⟨p, hp, hpe⟩
  · rw [h]; rfl
  · rw [hpe]
    exact nanFreeFields_mem f hf p hp

theorem deepEqual_refl_aux :
    ∀ n, ∀ v : Value, sizeOf v ≤ n → nanFree v = true → deepEqual v v = true := by
  intro n
  induction n with
  | zero =>
    intro v hsize
    cases v <;> simp_all <;> omega
  | succ n ih =>
    intro v hsize hnan
    match v with
    | .vNull => simp [deepEqual, strictEq]
    | .vUndefined => simp [deepEqual, strictEq]
    | .vNaN => exact absurd hnan (by simp [nanFree])
    | .vNum m => simp [deepEqual, strictEq]
    | .vStr s => simp [deepEqual, strictEq]
    | .vBool b => simp [deepEqual, strictEq]
    | .vDate t => simp [deepEqual, strictEq, looseNull]
    | .vArr elems =>
      have helems : deepEqualElems elems elems = true := by
        have hmem : ∀ x ∈ elems, deepEqual x x = true := by
          intro x hx
          have hs : sizeOf x ≤ n := by
            have := List.sizeOf_lt_of_mem hx
            have : sizeOf x < sizeOf (Value.vArr elems) := by
              simp only [Value.vArr.sizeOf_spec]
              omega
            omega
          exact ih x hs (nanFreeElems_mem elems (by simpa [nanFree] using hnan) x hx)
        clear hsize hnan
        induction elems with
        | nil => simp [deepEqualElems]
        | cons y ys ihe =>
          rw [deepEqualElems, Bool.and_eq_true]
          exact ⟨hmem y (by simp), ihe (fun x hx => hmem x (by simp [hx]))⟩
      simp [deepEqual, strictEq, looseNull, helems]
    | .vObj fields =>
      have hkeys : ∀ ks : List String,
          (∀ k ∈ ks, deepEqual (lookupJs fields k) (lookupJs fields k) = true) →
          deepEqualKeys ks fields fields = true := by
        intro ks hk
        induction ks with
        | nil => simp [deepEqualKeys]
        | cons k rest ihk =>
          rw [deepEqualKeys, Bool.and_eq_true]
          exact ⟨hk k (by simp), ihk (fun x hx => hk x (by simp [hx]))⟩
      have hlk : ∀ k, deepEqual (lookupJs fields k) (lookupJs fields k) = true := by
        intro k
        have hs : sizeOf (lookupJs fields k) ≤ n := by
          have h1 := sizeOf_lookupJs_le fields k
          have h2 : sizeOf fields < sizeOf (Value.vObj fields) := by
            simp only [Value.vObj.sizeOf_spec]
            omega
          omega
        exact ih _ hs (nanFree_lookup fields k (by simpa [nanFree] using hnan))
      have hko := hkeys (keysOf fields) (fun k _ => hlk k)
      simp [deepEqual, strictEq, looseNull, hko]

theorem deepEqual_refl (v : Value) (hv : nanFree v = true) :
    deepEqual v v = true :=
  deepEqual_refl_aux (sizeOf v) v (Nat.le_refl _) hv

theorem diffKeys_refl_empty (ks : List String) (f : List (String × Value))
    (ex : List String) (pp : String)
    (h : ∀ k, deepEqual (lookupJs f k) (lookupJs f k) = true) :
    diffKeys ks f f ex pp = [] := by
  induction ks with
  | nil => simp [diffKeys]
  | cons k rest ih =>
    rw [diffKeys]
    rw [ih]
    simp only [List.append_nil]
    split_ifs <;> first
      | rfl
      | simp [diffValue.eq_def, h k]

/-- C6 counterexample: for the document `{a: NaN}` (compared with a
structurally identical document), the computed diff is the non-empty list
recording `a` as changed — `NaN === NaN` is false and `deepEqual` inherits
that, so `diff(X, X)` is not empty for every `X`. -/
theorem diff_self_nan_nonempty :
    calculateDiff (some [("a", .vNaN)]) (some [("a", .vNaN)]) [] ""
      = [⟨"a", .vNaN, .vNaN, "a"⟩] := by
  simp [calculateDiff, diffObjects, diffKeys, diffValue, deepEqual, strictEq,
    looseNull, jsSetUnion, insertUniq, keysOf, lookupJs, List.find?,
    serializeValue]

/-- C6 (amended): for every document `X` that contains no `NaN` value (at any
depth, including inside nested objects, arrays, and `Date` values) and every
exclusion list, `calculateDiff(X, X, excludeFields)` is empty. -/
theorem diff_self_empty (X : List (String × Value)) (ex : List String)
    (pp : String) (h : nanFreeFields X = true) :
    calculateDiff (some X) (some X) ex pp = [] := by
  simp only [calculateDiff, diffObjects]
  exact diffKeys_refl_empty _ _ _ _
    (fun k => deepEqual_refl _ (nanFree_lookup X k h))

/-- Witness for C6 (amended): a document with a date, a nested object and a
heterogeneous array diffs to the empty list against itself. -/
theorem diff_self_empty_witness :
    calculateDiff
        (some [("d", .vDate 5), ("o", .vObj [("x", .vNum 1)]),
               ("a", .vArr [.vNum 1, .vStr "s", .vNull])])
        (some [("d", .vDate 5), ("o", .vObj [("x", .vNum 1)]),
               ("a", .vArr [.vNum 1, .vStr "s", .vNull])]) ["p"] "" = [] :=
  diff_self_empty _ ["p"] ""
    (by simp [nanFreeFields, nanFree, nanFreeElems])

/-! ### C7: excluded and housekeeping names never appear as path segments -/

/-- Split a character list at every dot, keeping empty segments: the
dot-separated segments of a path. -/
def splitDots : List Char → List (List Char)
  | [] => [[]]
  | c :: cs =>
    if c = '.' then [] :: splitDots cs
    else
      match splitDots cs with
      | [] => [[c]]
      | s :: rest => (c :: s) :: rest

/-- The dot-separated segments of a path or field string. -/
def segsOf (s : String) : List (List Char) := splitDots s.data

/-- A name usable as a single path segment: it contains no dot and no opening
bracket. -/
def plainName (s : String) : Bool :=
  decide ('.' ∉ s.data) && decide ('[' ∉ s.data)

/-- A key that does not span several segments: it contains no dot. -/
def dotFree (s : String) : Bool := decide ('.' ∉ s.data)

/-- The names that must not occur as path segments: the excluded fields plus
the three reserved housekeeping fields. -/
def badNames (ex : List String) : List String :=
  ex ++ ["id", "createdAt", "updatedAt"]

/-- The segment `s` differs from every bad name. -/
def segSafe (bad : List String) (s : List Char) : Prop :=
  ∀ b ∈ bad, s ≠ b.data

/-- Every dot-separated segment of `p` differs from every bad name. -/
def pathSafe (bad : List String) (p : String) : Prop :=
  ∀ s ∈ segsOf p, segSafe bad s

/-- Both strings of a `FieldChange` are segment-safe. -/
def changeSafe (bad : List String) (c : FieldChange) : Prop :=
  pathSafe bad c.path ∧ pathSafe bad c.field

theorem splitDots_ne_nil (xs : List Char) : splitDots xs ≠ [] := by
  match xs with
  | [] => simp [splitDots]
  | c :: cs =>
    by_cases hc : c = '.'
    · simp [splitDots, hc]
    · simp only [splitDots, hc, if_false]
      cases h : splitDots cs <;> simp

theorem splitDots_append_dot (xs ys : List Char) :
    splitDots (xs ++ '.' :: ys) = splitDots xs ++ splitDots ys := by
  induction xs with
  | nil => simp [splitDots]
  | cons c cs ih =>
    by_cases hc : c = '.'
    · simp [splitDots, hc, ih]
    · simp only [List.cons_append, splitDots, hc, if_false]
      cases h : splitDots cs with
      | nil => exact absurd h (splitDots_ne_nil cs)
      | cons s rest =>
        simp only [List.append_eq]
        rw [ih, h]
        simp

theorem splitDots_dotfree (xs : List Char) (h : ∀ c ∈ xs, ¬ c = '.') :
    splitDots xs = [xs] := by
  induction xs with
  | nil => rfl
  | cons c cs ih =>
    have hc : ¬ c = '.' := h c (by simp)
    simp only [splitDots, hc, if_false]
    rw [ih (fun d hd => h d (by simp [hd]))]

theorem splitDots_append_dotfree (xs ys : List Char) (h : ∀ c ∈ ys, ¬ c = '.') :
    ∃ pre last, splitDots xs = pre ++ [last] ∧
      splitDots (xs ++ ys) = pre ++ [last ++ ys] := by
  induction xs with
  | nil =>
    refine ⟨[], [], rfl, ?_⟩
    simpa [splitDots] using splitDots_dotfree ys h
  | cons c cs ih =>
    obtain ⟨pre, last, h1, h2⟩ := ih
    by_cases hc : c = '.'
    · refine ⟨[] :: pre, last, ?_, ?_⟩
      · simp [splitDots, hc, h1]
      · simp [splitDots, hc, h2]
    · cases pre with
      | nil =>
        refine ⟨[], c :: last, ?_, ?_⟩
        · simp only [splitDots, hc, if_false]
          simp only [List.nil_append] at h1
          simp [h1]
        · simp only [List.cons_append, splitDots, hc, if_false]
          simp only [List.nil_append] at h2
          simp [h2]
      | cons p pre2 =>
        refine ⟨(c :: p) :: pre2, last, ?_, ?_⟩
        · simp only [splitDots, hc, if_false]
          simp [h1]
        · simp only [List.cons_append, splitDots, hc, if_false]
          simp [h2]

theorem segSafe_of_bracket (bad : List String)
    (hplain : ∀ b ∈ bad, plainName b = true)
    (s : List Char) (hs : '[' ∈ s) : segSafe bad s := by
  intro b hb heq
  have hp := hplain b hb
  rw [plainName, Bool.and_eq_true] at hp
  have hni : '[' ∉ b.data := of_decide_eq_true hp.2
  rw [heq] at hs
  exact hni hs

theorem dotFree_chars (k : String) (hk : dotFree k = true) :
    ∀ c ∈ k.data, ¬ c = '.' := by
  intro c hc he
  rw [dotFree] at hk
  have hnd : '.' ∉ k.data := of_decide_eq_true hk
  rw [he] at hc
  exact hnd hc

theorem pathSafe_single (bad : List String) (k : String)
    (hk : dotFree k = true) (hsafe : segSafe bad k.data) : pathSafe bad k := by
  intro s hs
  rw [segsOf, splitDots_dotfree k.data (dotFree_chars k hk)] at hs
  rcases List.mem_singleton.mp hs with rfl
  exact hsafe

theorem pathSafe_extend_dot (bad : List String) (p k : String)
    (hp : pathSafe bad p) (hk : dotFree k = true)
    (hsafe : segSafe bad k.data) : pathSafe bad (p ++ "." ++ k) := by
  intro s hs
  have hdata : (p ++ "." ++ k).data = p.data ++ '.' :: k.data := by
    show (p.data ++ ['.']) ++ k.data = p.data ++ '.' :: k.data
    simp
  rw [segsOf, hdata, splitDots_append_dot,
    splitDots_dotfree k.data (dotFree_chars k hk)] at hs
  rcases List.mem_append.mp hs with hs1 | hs2
  · exact hp s hs1
  · rcases List.mem_singleton.mp hs2 with rfl
    exact hsafe

theorem digitChar_ok : ∀ d < 10, ¬ digitChar d = '.' ∧ ¬ digitChar d = '[' := by
  decide

theorem natDigitsFuel_chars :
    ∀ fuel n (acc : List Char), (∀ c ∈ acc, ¬ c = '.' ∧ ¬ c = '[') →
      ∀ c ∈ natDigitsFuel fuel n acc, ¬ c = '.' ∧ ¬ c = '[' := by
  intro fuel
  induction fuel with
  | zero =>
    intro n acc hacc c hc
    exact hacc c hc
  | succ f ih =>
    intro n acc hacc c hc
    rw [natDigitsFuel] at hc
    by_cases hn : n = 0
    · rw [if_pos hn] at hc
      exact hacc c hc
    · rw [if_neg hn] at hc
      refine ih (n / 10) _ ?_ c hc
      intro d hd
      rcases List.mem_cons.mp hd with rfl | hd2
      · exact digitChar_ok _ (Nat.mod_lt _ (by omega))
      · exact hacc d hd2

theorem natToString_chars (i : Nat) :
    ∀ c ∈ (natToString i).data, ¬ c = '.' ∧ ¬ c = '[' := by
  rw [natToString]
  by_cases hi : i = 0
  · rw [if_pos hi]
    decide
  · rw [if_neg hi]
    exact natDigitsFuel_chars (i + 1) i [] (by simp)

theorem pathSafe_extend_bracket (bad : List String)
    (hplain : ∀ b ∈ bad, plainName b = true)
    (p : String) (i : Nat) (hp : pathSafe bad p) :
    pathSafe bad (p ++ "[" ++ natToString i ++ "]") := by
  have hdata : (p ++ "[" ++ natToString i ++ "]").data
      = p.data ++ ('[' :: ((natToString i).data ++ [']'])) := by
    show ((p.data ++ ['[']) ++ (natToString i).data) ++ [']']
      = p.data ++ ('[' :: ((natToString i).data ++ [']']))
    simp
  have hys : ∀ c ∈ '[' :: ((natToString i).data ++ [']']), ¬ c = '.' := by
    intro c hc
    rcases List.mem_cons.mp hc with rfl | hc2
    · decide
    · rcases List.mem_append.mp hc2 with hc3 | hc4
      · exact (natToString_chars i c hc3).1
      · rcases List.mem_singleton.mp hc4 with rfl
        decide
  obtain ⟨pre, last, h1, h2⟩ :=
    splitDots_append_dotfree p.data ('[' :: ((natToString i).data ++ [']'])) hys
  intro s hs
  rw [segsOf, hdata, h2] at hs
  rcases List.mem_append.mp hs with hs1 | hs2
  · refine hp s ?_
    rw [segsOf, h1]
    exact List.mem_append.mpr (Or.inl hs1)
  · rcases List.mem_singleton.mp hs2 with rfl
    refine segSafe_of_bracket bad hplain _ ?_
    exact List.mem_append.mpr (Or.inr (by simp))

mutual
/-- Every object key occurring anywhere in the value is dot-free. -/
def keysDotFree : Value → Bool
  | .vObj fields => keysDotFreeFields fields
  | .vArr elems => keysDotFreeElems elems
  | _ => true

/-- Every object key occurring in any element is dot-free. -/
def keysDotFreeElems : List Value → Bool
  | [] => true
  | x :: xs => keysDotFree x && keysDotFreeElems xs

/-- All keys are dot-free, at this level and below. -/
def keysDotFreeFields : List (String × Value) → Bool
  | [] => true
  | p :: ps => dotFree p.1 && keysDotFree p.2 && keysDotFreeFields ps
end

theorem string_data_inj (s t : String) (h : s.data = t.data) : s = t := by
  cases s with
  | mk d1 =>
    cases t with
    | mk d2 =>
      have h2 : d1 = d2 := h
      rw [h2]

theorem keysDotFreeFields_mem (f : List (String × Value))
    (h : keysDotFreeFields f = true) (p : String × Value) (hp : p ∈ f) :
    dotFree p.1 = true ∧ keysDotFree p.2 = true := by
  induction f with
  | nil => exact absurd hp (by simp)
  | cons q qs ih =>
    rw [keysDotFreeFields, Bool.and_eq_true, Bool.and_eq_true] at h
    rcases List.mem_cons.mp hp with rfl | hp2
    · exact ⟨h.1.1, h.1.2⟩
    · exact ih h.2 hp2

theorem keysDotFree_lookup (f : List (String × Value)) (k : String)
    (h : keysDotFreeFields f = true) : keysDotFree (lookupJs f k) = true := by
  rcases lookupJs_mem_or_undefined f k with he | ⟨p, hp, hpe⟩
  · rw [he]
    rfl
  · rw [hpe]
    exact (keysDotFreeFields_mem f h p hp).2

theorem keysOf_dotFree (f : List (String × Value))
    (h : keysDotFreeFields f = true) (k : String) (hk : k ∈ keysOf f) :
    dotFree k = true := by
  obtain ⟨p, hp, hpe⟩ := List.mem_map.mp hk
  rw [← hpe]
  exact (keysDotFreeFields_mem f h p hp).1

theorem keysDotFreeElems_mem (a : List Value)
    (h : keysDotFreeElems a = true) (x : Value) (hx : x ∈ a) :
    keysDotFree x = true := by
  induction a with
  | nil => exact absurd hx (by simp)
  | cons y ys ih =>
    rw [keysDotFreeElems, Bool.and_eq_true] at h
    rcases List.mem_cons.mp hx with rfl | hx2
    · exact h.1
    · exact ih h.2 hx2

theorem keysDotFree_arrGet (a : List Value) (i : Nat)
    (h : keysDotFreeElems a = true) : keysDotFree (arrGet a i) = true := by
  cases hg : a.get? i with
  | none =>
    rw [arrGet, hg]
    rfl
  | some x =>
    rw [arrGet, hg]
    exact keysDotFreeElems_mem a h x (List.get?_mem hg)

theorem mem_foldl_insertUniq (xs : List String) (acc : List String) (x : String)
    (hx : x ∈ xs.foldl insertUniq acc) : x ∈ acc ∨ x ∈ xs := by
  induction xs generalizing acc with
  | nil => exact Or.inl hx
  | cons y ys ih =>
    rcases ih (insertUniq acc y) hx with h | h
    · rw [insertUniq] at h
      split_ifs at h
      · exact Or.inl h
      · rcases List.mem_append.mp h with h2 | h2
        · exact Or.inl h2
        · rcases List.mem_singleton.mp h2 with rfl
          exact Or.inr (by simp)
    · exact Or.inr (by simp [h])

theorem mem_jsSetUnion (ks1 ks2 : List String) (x : String)
    (hx : x ∈ jsSetUnion ks1 ks2) : x ∈ ks1 ∨ x ∈ ks2 := by
  rcases mem_foldl_insertUniq (ks1 ++ ks2) [] x hx with h | h
  · exact absurd h (by simp)
  · exact List.mem_append.mp h

theorem segSafe_of_key (ex : List String) (k : String)
    (hex : ¬ ex.contains k = true)
    (hres : ¬ (k == "updatedAt" || k == "createdAt" || k == "id") = true) :
    segSafe (badNames ex) k.data := by
  intro b hb heq
  have hkb : k = b := string_data_inj _ _ heq
  subst hkb
  rcases List.mem_append.mp hb with hbex | hbres
  · exact hex (List.elem_eq_true_of_mem hbex)
  · have hne : (¬ k = "updatedAt" ∧ ¬ k = "createdAt") ∧ ¬ k = "id" := by
      simpa using hres
    simp only [List.mem_cons, List.mem_singleton] at hbres
    rcases hbres with rfl | rfl | rfl | h
    · exact hne.2 rfl
    · exact hne.1.2 rfl
    · exact hne.1.1 rfl
    · exact absurd h (by simp)

theorem segSafe_length (ex : List String) (hlen : "length" ∉ ex) :
    segSafe (badNames ex) ("length").data := by
  intro b hb heq
  have hkb : ("length" : String) = b := string_data_inj _ _ heq
  subst hkb
  rcases List.mem_append.mp hb with hbex | hbres
  · exact hlen hbex
  · simp at hbres

theorem badNames_plain (ex : List String)
    (hplain : ∀ e ∈ ex, plainName e = true) :
    ∀ b ∈ badNames ex, plainName b = true := by
  intro b hb
  rcases List.mem_append.mp hb with h | h
  · exact hplain b h
  · simp only [List.mem_cons, List.mem_singleton] at h
    rcases h with rfl | rfl | rfl | h
    · decide
    · decide
    · decide
    · exact absurd h (by simp)

theorem diffValue_leaf_eq (k : String) (v1 v2 : Value) (ex : List String)
    (cur : String) (hne : ¬ deepEqual v1 v2 = true)
    (hnobj : ∀ g1 g2, v1 = .vObj g1 → v2 = .vObj g2 → False)
    (hnarr : ∀ a1 a2, v1 = .vArr a1 → v2 = .vArr a2 → False) :
    diffValue k v1 v2 ex cur
      = [⟨k, serializeValue v1, serializeValue v2, cur⟩] := by
  cases v1 <;> cases v2 <;>
    first
    | exact (hnobj _ _ rfl rfl).elim
    | exact (hnarr _ _ rfl rfl).elim
    | simp [diffValue.eq_def, hne]

theorem arrItemDiff_leaf_eq (v1 v2 : Value) (itemPath : String)
    (ex : List String) (hne : ¬ deepEqual v1 v2 = true)
    (hnobj : ∀ g1 g2, v1 = .vObj g1 → v2 = .vObj g2 → False) :
    arrItemDiff v1 v2 itemPath ex
      = [⟨itemPath, serializeValue v1, serializeValue v2, itemPath⟩] := by
  cases v1 <;> cases v2 <;>
    first
    | exact (hnobj _ _ rfl rfl).elim
    | simp [arrItemDiff.eq_def, hne]

theorem diffObjects_changeSafe :
    ∀ (f1 f2 : List (String × Value)) (ex : List String) (pp : String),
      "length" ∉ ex → (∀ e ∈ ex, plainName e = true) →
      keysDotFreeFields f1 = true → keysDotFreeFields f2 = true →
      (pp = "" ∨ pathSafe (badNames ex) pp) →
      ∀ c ∈ diffObjects f1 f2 ex pp, changeSafe (badNames ex) c := by
  refine diffObjects.induct
    (fun f1 f2 ex pp =>
      "length" ∉ ex → (∀ e ∈ ex, plainName e = true) →
      keysDotFreeFields f1 = true → keysDotFreeFields f2 = true →
      (pp = "" ∨ pathSafe (badNames ex) pp) →
      ∀ c ∈ diffObjects f1 f2 ex pp, changeSafe (badNames ex) c)
    (fun ks f1 f2 ex pp =>
      "length" ∉ ex → (∀ e ∈ ex, plainName e = true) →
      keysDotFreeFields f1 = true → keysDotFreeFields f2 = true →
      (∀ k ∈ ks, dotFree k = true) →
      (pp = "" ∨ pathSafe (badNames ex) pp) →
      ∀ c ∈ diffKeys ks f1 f2 ex pp, changeSafe (badNames ex) c)
    (fun k v1 v2 ex cur =>
      "length" ∉ ex → (∀ e ∈ ex, plainName e = true) →
      dotFree k = true → segSafe (badNames ex) k.data →
      keysDotFree v1 = true → keysDotFree v2 = true →
      pathSafe (badNames ex) cur →
      ∀ c ∈ diffValue k v1 v2 ex cur, changeSafe (badNames ex) c)
    (fun a1 a2 path ex =>
      "length" ∉ ex → (∀ e ∈ ex, plainName e = true) →
      keysDotFreeElems a1 = true → keysDotFreeElems a2 = true →
      pathSafe (badNames ex) path →
      ∀ c ∈ compareArrays a1 a2 path ex, changeSafe (badNames ex) c)
    (fun a1 a2 path ex i rem =>
      "length" ∉ ex → (∀ e ∈ ex, plainName e = true) →
      keysDotFreeElems a1 = true → keysDotFreeElems a2 = true →
      pathSafe (badNames ex) path →
      ∀ c ∈ arrLoop a1 a2 path ex i rem, changeSafe (badNames ex) c)
    (fun v1 v2 itemPath ex =>
      "length" ∉ ex → (∀ e ∈ ex, plainName e = true) →
      keysDotFree v1 = true → keysDotFree v2 = true →
      pathSafe (badNames ex) itemPath →
      ∀ c ∈ arrItemDiff v1 v2 itemPath ex, changeSafe (badNames ex) c)
    ?_ ?_ ?_ ?_ ?_ ?_ ?_ ?_ ?_ ?_ ?_ ?_ ?_
  · -- diffObjects unfolds to diffKeys over the key-set union
    intro od nd ex pp hm2 hlen hplain hk1 hk2 hpp c hc
    rw [diffObjects] at hc
    refine hm2 hlen hplain hk1 hk2 ?_ hpp c hc
    intro k hk
    rcases mem_jsSetUnion _ _ k hk with h | h
    · exact keysOf_dotFree od hk1 k h
    · exact keysOf_dotFree nd hk2 k h
  · -- diffKeys on the empty key list
    intro f1 f2 ex pp hlen hplain hk1 hk2 hks hpp c hc
    simp [diffKeys] at hc
  · -- diffKeys cons: guards, then the per-key body, then the tail
    intro f1 f2 ex pp k rest h3 h2 hlen hplain hk1 hk2 hks hpp c hc
    rw [diffKeys] at hc
    rcases List.mem_append.mp hc with hcl | hcr
    · simp at hcl
      obtain ⟨hnex, hnres, hcv⟩ := hcl
      have hex : ¬ ex.contains k = true := by simpa using hnex
      have hres : ¬ (k == "updatedAt" || k == "createdAt" || k == "id") = true := by
        simp only [Bool.or_eq_true, beq_iff_eq]
        intro h
        rcases h with (h | h) | h
        · exact hnres.1.1 h
        · exact hnres.1.2 h
        · exact hnres.2 h
      have hsk : segSafe (badNames ex) k.data := segSafe_of_key ex k hex hres
      have hdk : dotFree k = true := hks k (by simp)
      simp only [dite_eq_ite, beq_iff_eq] at h3
      refine h3 hlen hplain hdk hsk (keysDotFree_lookup f1 k hk1)
        (keysDotFree_lookup f2 k hk2) ?_ c hcv
      by_cases hppe : pp = ""
      · rw [if_pos hppe]
        exact pathSafe_single _ k hdk hsk
      · rw [if_neg hppe]
        have hpps : pathSafe (badNames ex) pp := hpp.resolve_left hppe
        exact pathSafe_extend_dot _ pp k hpps hdk hsk
    · exact h2 hlen hplain hk1 hk2 (fun x hx => hks x (by simp [hx])) hpp c hcr
  · -- diffValue: values deep-equal, nothing emitted
    intro k v1 v2 ex cur hde hlen hplain hdk hsk hkv1 hkv2 hcur c hc
    simp [diffValue.eq_def, hde] at hc
  · -- diffValue: two plain objects recurse
    intro k ex cur g1 g2 hde h1 hlen hplain hdk hsk hkv1 hkv2 hcur c hc
    simp only [diffValue.eq_def, hde, if_false, Bool.false_eq_true] at hc
    refine h1 hlen hplain ?_ ?_ (Or.inr hcur) c hc
    · simpa [keysDotFree] using hkv1
    · simpa [keysDotFree] using hkv2
  · -- diffValue: two arrays go to compareArrays
    intro k ex cur a1 a2 hde h4 hlen hplain hdk hsk hkv1 hkv2 hcur c hc
    simp only [diffValue.eq_def, hde, if_false, Bool.false_eq_true] at hc
    refine h4 hlen hplain ?_ ?_ hcur c hc
    · simpa [keysDotFree] using hkv1
    · simpa [keysDotFree] using hkv2
  · -- diffValue: serialized leaf change
    intro k v1 v2 ex cur hde hnobj hnarr hlen hplain hdk hsk hkv1 hkv2 hcur c hc
    rw [diffValue_leaf_eq k v1 v2 ex cur hde hnobj hnarr] at hc
    rcases List.mem_singleton.mp hc with rfl
    exact ⟨hcur, pathSafe_single _ k hdk hsk⟩
  · -- compareArrays: synthetic length change plus the index loop
    intro a1 a2 path ex hm5 hlen hplain he1 he2 hpath c hc
    rw [compareArrays] at hc
    rcases List.mem_append.mp hc with hcl | hcr
    · by_cases hlen2 : a1.length ≠ a2.length
      · rw [if_pos hlen2] at hcl
        rcases List.mem_singleton.mp hcl with rfl
        have hassoc : path ++ ".length" = path ++ "." ++ "length" := by
          apply string_data_inj
          show path.data ++ (".length").data
            = (path.data ++ (".").data) ++ ("length").data
          simp
        have hsl : pathSafe (badNames ex) (path ++ ".length") := by
          rw [hassoc]
          exact pathSafe_extend_dot _ path "length" hpath (by decide)
            (segSafe_length ex hlen)
        exact ⟨hsl, hsl⟩
      · rw [if_neg hlen2] at hcl
        simp at hcl
    · exact hm5 hlen hplain he1 he2 hpath c hcr
  · -- arrLoop: no indices left
    intro a1 a2 path ex i hlen hplain he1 he2 hpath c hc
    simp [arrLoop] at hc
  · -- arrLoop: one index, then the rest
    intro a1 a2 path ex i n h6 h5 hlen hplain he1 he2 hpath c hc
    rw [arrLoop] at hc
    rcases List.mem_append.mp hc with hcl | hcr
    · refine h6 hlen hplain (keysDotFree_arrGet a1 i he1)
        (keysDotFree_arrGet a2 i he2) ?_ c hcl
      exact pathSafe_extend_bracket _ (badNames_plain ex hplain) path i hpath
    · exact h5 hlen hplain he1 he2 hpath c hcr
  · -- arrItemDiff: items deep-equal, nothing emitted
    intro v1 v2 itemPath ex hde hlen hplain hkv1 hkv2 hip c hc
    simp [arrItemDiff.eq_def, hde] at hc
  · -- arrItemDiff: two plain objects recurse
    intro itemPath ex g1 g2 hde h1 hlen hplain hkv1 hkv2 hip c hc
    simp only [arrItemDiff.eq_def, hde, if_false, Bool.false_eq_true] at hc
    refine h1 hlen hplain ?_ ?_ (Or.inr hip) c hc
    · simpa [keysDotFree] using hkv1
    · simpa [keysDotFree] using hkv2
  · -- arrItemDiff: serialized leaf change at the bracketed item path
    intro v1 v2 itemPath ex hde hnobj hlen hplain hkv1 hkv2 hip c hc
    rw [arrItemDiff_leaf_eq v1 v2 itemPath ex hde hnobj] at hc
    rcases List.mem_singleton.mp hc with rfl
    exact ⟨hip, hip⟩

/-- Both strings of a `FlatItem` are segment-safe. -/
def flatSafe (bad : List String) (it : FlatItem) : Prop :=
  pathSafe bad it.path ∧ pathSafe bad it.field

theorem flattenValue_leaf_eq (k : String) (v : Value) (cur : String)
    (ex : List String)
    (hnobj : ∀ f2, v = .vObj f2 → False)
    (hnarr : ∀ a, v = .vArr a → False) :
    flattenValue k v cur ex = [⟨k, serializeValue v, cur⟩] := by
  cases v <;>
    first
    | exact (hnobj _ rfl).elim
    | exact (hnarr _ rfl).elim
    | simp [flattenValue.eq_def]

theorem flattenObject_flatSafe :
    ∀ (f : List (String × Value)) (pp : String) (ex : List String),
      "length" ∉ ex → (∀ e ∈ ex, plainName e = true) →
      keysDotFreeFields f = true →
      (pp = "" ∨ pathSafe (badNames ex) pp) →
      ∀ it ∈ flattenObject f pp ex, flatSafe (badNames ex) it := by
  refine flattenObject.induct
    (fun f pp ex =>
      "length" ∉ ex → (∀ e ∈ ex, plainName e = true) →
      keysDotFreeFields f = true →
      (pp = "" ∨ pathSafe (badNames ex) pp) →
      ∀ it ∈ flattenObject f pp ex, flatSafe (badNames ex) it)
    (fun ks f pp ex =>
      "length" ∉ ex → (∀ e ∈ ex, plainName e = true) →
      keysDotFreeFields f = true →
      (∀ k ∈ ks, dotFree k = true) →
      (pp = "" ∨ pathSafe (badNames ex) pp) →
      ∀ it ∈ flattenKeys ks f pp ex, flatSafe (badNames ex) it)
    (fun k v cur ex =>
      "length" ∉ ex → (∀ e ∈ ex, plainName e = true) →
      dotFree k = true → segSafe (badNames ex) k.data →
      keysDotFree v = true →
      pathSafe (badNames ex) cur →
      ∀ it ∈ flattenValue k v cur ex, flatSafe (badNames ex) it)
    (fun k elems idx cur ex =>
      "length" ∉ ex → (∀ e ∈ ex, plainName e = true) →
      dotFree k = true → segSafe (badNames ex) k.data →
      keysDotFreeElems elems = true →
      pathSafe (badNames ex) cur →
      ∀ it ∈ flattenElems k elems idx cur ex, flatSafe (badNames ex) it)
    ?_ ?_ ?_ ?_ ?_ ?_ ?_ ?_
  · -- flattenObject unfolds to flattenKeys over the key list
    intro f pp ex hm2 hlen hplain hkf hpp it hit
    rw [flattenObject] at hit
    exact hm2 hlen hplain hkf (fun k hk => keysOf_dotFree f hkf k hk) hpp it hit
  · -- flattenKeys on the empty key list
    intro f pp ex hlen hplain hkf hks hpp it hit
    simp [flattenKeys] at hit
  · -- flattenKeys cons: guards, then the per-key dispatch, then the tail
    intro f pp ex k rest h3 h2 hlen hplain hkf hks hpp it hit
    rw [flattenKeys] at hit
    rcases List.mem_append.mp hit with hitl | hitr
    · simp at hitl
      obtain ⟨hnex, hnres, hcv⟩ := hitl
      have hex : ¬ ex.contains k = true := by simpa using hnex
      have hres : ¬ (k == "updatedAt" || k == "createdAt" || k == "id") = true := by
        simp only [Bool.or_eq_true, beq_iff_eq]
        intro h
        rcases h with (h | h) | h
        · exact hnres.1.1 h
        · exact hnres.1.2 h
        · exact hnres.2 h
      have hsk : segSafe (badNames ex) k.data := segSafe_of_key ex k hex hres
      have hdk : dotFree k = true := hks k (by simp)
      simp only [dite_eq_ite, beq_iff_eq] at h3
      refine h3 hlen hplain hdk hsk (keysDotFree_lookup f k hkf) ?_ it hcv
      by_cases hppe : pp = ""
      · rw [if_pos hppe]
        exact pathSafe_single _ k hdk hsk
      · rw [if_neg hppe]
        exact pathSafe_extend_dot _ pp k (hpp.resolve_left hppe) hdk hsk
    · exact h2 hlen hplain hkf (fun x hx => hks x (by simp [hx])) hpp it hitr
  · -- flattenValue: plain object recurses
    intro k cur ex f2 h1 hlen hplain hdk hsk hkv hcur it hit
    simp only [flattenValue.eq_def] at hit
    refine h1 hlen hplain (by simpa [keysDotFree] using hkv) (Or.inr hcur) it hit
  · -- flattenValue: array walks its elements
    intro k cur ex elems h4 hlen hplain hdk hsk hkv hcur it hit
    simp only [flattenValue.eq_def] at hit
    exact h4 hlen hplain hdk hsk (by simpa [keysDotFree] using hkv) hcur it hit
  · -- flattenValue: serialized leaf
    intro k v cur ex hnobj hnarr hlen hplain hdk hsk hkv hcur it hit
    rw [flattenValue_leaf_eq k v cur ex hnobj hnarr] at hit
    rcases List.mem_singleton.mp hit with rfl
    exact ⟨hcur, pathSafe_single _ k hdk hsk⟩
  · -- flattenElems: no elements left
    intro k idx cur ex hlen hplain hdk hsk hke hcur it hit
    simp [flattenElems] at hit
  · -- flattenElems cons: the element (object or leaf), then the rest
    intro k idx cur ex item rest hm hm4 hlen hplain hdk hsk hke hcur it hit
    have hkes : keysDotFree item = true ∧ keysDotFreeElems rest = true := by
      rw [keysDotFreeElems, Bool.and_eq_true] at hke
      exact hke
    have htail : ∀ it2 ∈ flattenElems k rest (idx + 1) cur ex,
        flatSafe (badNames ex) it2 :=
      hm4 hlen hplain hdk hsk hkes.2 hcur
    cases item <;>
      (simp only [flattenElems] at hit
       rcases List.mem_append.mp hit with hitl | hitr
       · first
         | exact hm hlen hplain (by simpa [keysDotFree] using hkes.1)
             (Or.inr (pathSafe_extend_bracket _ (badNames_plain ex hplain)
               cur idx hcur)) it hitl
         | (rcases List.mem_singleton.mp hitl with rfl
            exact ⟨pathSafe_extend_bracket _ (badNames_plain ex hplain) cur idx
                hcur,
              pathSafe_extend_bracket _ (badNames_plain ex hplain) k idx
                (pathSafe_single _ k hdk hsk)⟩)
       · exact htail it hitr)

/-- C7 counterexample: with `excludeFields = ["length"]` and an array field
whose length changed, the synthetic `xs.length` change carries the excluded
name `length` as a dot-separated path segment. -/
theorem excluded_name_as_segment :
    ∃ c ∈ calculateDiff (some [("xs", .vArr [.vNum 1, .vNum 2])])
        (some [("xs", .vArr [.vNum 1])]) ["length"] "",
      ∃ s ∈ segsOf c.path, ∃ b ∈ badNames ["length"], s = b.data := by
  refine ⟨⟨"xs" ++ ".length", .vNum 2, .vNum 1, "xs" ++ ".length"⟩, ?_, ?_⟩
  · have hstep : calculateDiff (some [("xs", .vArr [.vNum 1, .vNum 2])])
        (some [("xs", .vArr [.vNum 1])]) ["length"] ""
        = compareArrays [.vNum 1, .vNum 2] [.vNum 1] ("xs") ["length"] := by
      simp [calculateDiff, diffObjects, diffKeys, diffValue.eq_def,
        jsSetUnion, insertUniq, keysOf, lookupJs, List.find?, deepEqual,
        strictEq, looseNull, deepEqualElems]
    rw [hstep, compareArrays]
    refine List.mem_append.mpr (Or.inl ?_)
    simp
  · refine ⟨("length").data, ?_, "length", by simp [badNames], rfl⟩
    show ("length").data ∈ segsOf ("xs" ++ ".length")
    decide

/-- C7 (amended): provided `"length"` is not an excluded name, every excluded
name is plain (no dot, no bracket), and every object key in the documents is
dot-free, no `FieldChange` produced by `calculateDiff` has a `field` or
`path` containing an excluded name or a reserved housekeeping name
(`id`, `createdAt`, `updatedAt`) as a dot-separated segment, at any nesting
depth.  (The counterexample shows the `length` proviso is necessary: the
synthetic `path.length` change always uses the literal segment `length`.) -/
theorem diff_paths_avoid_bad_names
    (oldDoc newDoc : Option (List (String × Value))) (ex : List String)
    (hlen : "length" ∉ ex)
    (hplain : ∀ e ∈ ex, plainName e = true)
    (hko : ∀ f, oldDoc = some f → keysDotFreeFields f = true)
    (hkn : ∀ f, newDoc = some f → keysDotFreeFields f = true) :
    ∀ c ∈ calculateDiff oldDoc newDoc ex "", changeSafe (badNames ex) c := by
  intro c hc
  match oldDoc, newDoc with
  | none, none => simp [calculateDiff] at hc
  | none, some nd =>
    simp only [calculateDiff] at hc
    obtain ⟨it, hit, hec⟩ := List.mem_map.mp hc
    have hsafe := flattenObject_flatSafe nd "" ex hlen hplain (hkn nd rfl)
      (Or.inl rfl) it hit
    rw [← hec]
    exact ⟨hsafe.1, hsafe.2⟩
  | some od, none =>
    simp only [calculateDiff] at hc
    obtain ⟨it, hit, hec⟩ := List.mem_map.mp hc
    have hsafe := flattenObject_flatSafe od "" ex hlen hplain (hko od rfl)
      (Or.inl rfl) it hit
    rw [← hec]
    exact ⟨hsafe.1, hsafe.2⟩
  | some od, some nd =>
    exact diffObjects_changeSafe od nd ex "" hlen hplain (hko od rfl)
      (hkn nd rfl) (Or.inl rfl) c hc

/-- Witness for C7 (amended): with excluded name `password`, the concrete
change the diff produces for two documents with a nested object avoids the
excluded and housekeeping names as path segments. -/
theorem diff_paths_avoid_bad_names_witness :
    changeSafe (badNames ["password"])
      ⟨"tag", .vStr "x", .vStr "y", "meta" ++ "." ++ "tag"⟩ :=
  diff_paths_avoid_bad_names
    (some [("meta", .vObj [("tag", .vStr "x")]), ("password", .vStr "a")])
    (some [("meta", .vObj [("tag", .vStr "y")]), ("password", .vStr "b")])
    ["password"] (by decide) (by decide)
    (fun f hf => by
      cases hf
      simp [keysDotFreeFields, keysDotFree, keysDotFreeElems, dotFree])
    (fun f hf => by
      cases hf
      simp [keysDotFreeFields, keysDotFree, keysDotFreeElems, dotFree])
    ⟨"tag", .vStr "x", .vStr "y", "meta" ++ "." ++ "tag"⟩
    (by simp [calculateDiff, diffObjects, diffKeys, diffValue.eq_def,
      deepEqual, deepEqualKeys, strictEq, looseNull, jsSetUnion, insertUniq,
      keysOf, lookupJs, List.find?, serializeValue])

/-! ### C5: antisymmetry of the diff -/

/-- Swap a change's old and new values, keeping field and path. -/
def swapChange (c : FieldChange) : FieldChange :=
  ⟨c.field, c.newValue, c.oldValue, c.path⟩

/-- Is the value JavaScript `undefined`? -/
def isUndef : Value → Bool
  | .vUndefined => true
  | _ => false

/-- A key survives the diff's guards: neither excluded nor housekeeping. -/
def retainedKey (ex : List String) (k : String) : Bool :=
  !(ex.contains k || (k == "updatedAt" || k == "createdAt" || k == "id"))

mutual
/-- A well-formed JavaScript document value, as Payload delivers documents:
every object along the value has duplicate-free keys, and no present key
stores `undefined` (absent keys read as `undefined`, present ones never do). -/
def wfDoc : Value → Bool
  | .vObj fields => wfFields fields
  | .vArr elems => wfElems elems
  | _ => true

/-- Every element is a well-formed document value. -/
def wfElems : List Value → Bool
  | [] => true
  | x :: xs => wfDoc x && wfElems xs

/-- Keys are duplicate-free and no stored value is `undefined`. -/
def wfFields : List (String × Value) → Bool
  | [] => true
  | p :: ps =>
    !(isUndef p.2) && !((keysOf ps).contains p.1) && wfDoc p.2 && wfFields ps
end

mutual
/-- Remove excluded and housekeeping keys at every depth, leaving everything
else unchanged: the part of a document that the diff can see. -/
def scrub (ex : List String) : Value → Value
  | .vObj fields => .vObj (scrubFields ex fields)
  | .vArr elems => .vArr (scrubElems ex elems)
  | v => v

/-- `scrub` each element. -/
def scrubElems (ex : List String) : List Value → List Value
  | [] => []
  | x :: xs => scrub ex x :: scrubElems ex xs

/-- Drop excluded and housekeeping fields, `scrub` the kept values. -/
def scrubFields (ex : List String) : List (String × Value) → List (String × Value)
  | [] => []
  | p :: ps =>
    if retainedKey ex p.1 then (p.1, scrub ex p.2) :: scrubFields ex ps
    else scrubFields ex ps
end

theorem bool_ext (a b : Bool) (h : a = true ↔ b = true) : a = b := by
  cases a <;> cases b <;> simp_all

theorem beqComm {α : Type} [BEq α] [LawfulBEq α] (a b : α) : (a == b) = (b == a) := by
  by_cases h : a = b
  · subst h; rfl
  · have h1 : (a == b) = false := by
      cases hab : a == b
      · rfl
      · exact absurd (eq_of_beq hab) h
    have h2 : (b == a) = false := by
      cases hab : b == a
      · rfl
      · exact absurd (eq_of_beq hab).symm h
    rw [h1, h2]

theorem beq_false_of_ne {α : Type} [BEq α] [LawfulBEq α] (a b : α) (h : ¬ a = b) :
    (a == b) = false := by
  cases hab : a == b
  · rfl
  · exact absurd (eq_of_beq hab) h

theorem all_false_of_mem {α : Type} (l : List α) (p : α → Bool) (x : α)
    (hx : x ∈ l) (hp : p x = false) : l.all p = false := by
  cases h : l.all p
  · rfl
  · have hpx := List.all_eq_true.mp h x hx
    rw [hp] at hpx
    exact absurd hpx (by simp)

theorem all_congr_fn {α : Type} (l : List α) (p q : α → Bool)
    (h : ∀ x ∈ l, p x = q x) : l.all p = l.all q := by
  induction l with
  | nil => rfl
  | cons y ys ih =>
    simp only [List.all_cons]
    rw [h y (by simp), ih (fun x hx => h x (by simp [hx]))]

theorem all_congr_mem {α : Type} (l1 l2 : List α) (p : α → Bool)
    (h : ∀ x, x ∈ l1 ↔ x ∈ l2) : l1.all p = l2.all p := by
  apply bool_ext
  simp only [List.all_eq_true]
  constructor
  · intro ha x hx
    exact ha x ((h x).mpr hx)
  · intro ha x hx
    exact ha x ((h x).mp hx)

theorem perm_of_nodup_sub_len {α : Type} (l1 l2 : List α) (h1 : l1.Nodup)
    (hsub : ∀ x ∈ l1, x ∈ l2) (hlen : l2.length ≤ l1.length) : l1.Perm l2 :=
  (h1.subperm (fun x hx => hsub x hx)).perm_of_length_le hlen

theorem mem_of_sub_len_eq {α : Type} (l1 l2 : List α) (h1 : l1.Nodup)
    (hlen : l1.length = l2.length) (hsub : ∀ x ∈ l1, x ∈ l2) :
    ∀ x ∈ l2, x ∈ l1 := by
  have hp := perm_of_nodup_sub_len l1 l2 h1 hsub (by omega)
  intro x hx
  exact hp.mem_iff.mpr hx

theorem wfFields_parts (p : String × Value) (ps : List (String × Value))
    (h : wfFields (p :: ps) = true) :
    isUndef p.2 = false ∧ ((keysOf ps).contains p.1) = false ∧
      wfDoc p.2 = true ∧ wfFields ps = true := by
  rw [wfFields] at h
  simp only [Bool.and_eq_true, Bool.not_eq_true'] at h
  exact ⟨h.1.1.1, h.1.1.2, h.1.2, h.2⟩

theorem wfFields_nodup (f : List (String × Value)) (h : wfFields f = true) :
    (keysOf f).Nodup := by
  induction f with
  | nil => simp [keysOf]
  | cons p ps ih =>
    obtain ⟨_, hnc, _, hps⟩ := wfFields_parts p ps h
    have hnm : p.1 ∉ keysOf ps := by simpa using hnc
    simp only [keysOf, List.map_cons, List.nodup_cons]
    exact ⟨hnm, ih hps⟩

theorem wfDoc_lookup (f : List (String × Value)) (k : String)
    (h : wfFields f = true) : wfDoc (lookupJs f k) = true := by
  induction f with
  | nil => rfl
  | cons p ps ih =>
    obtain ⟨_, _, hwd, hps⟩ := wfFields_parts p ps h
    by_cases hp : p.1 == k
    · have he : lookupJs (p :: ps) k = p.2 := by simp [lookupJs, List.find?, hp]
      rw [he]; exact hwd
    · have he : lookupJs (p :: ps) k = lookupJs ps k := by
        simp [lookupJs, List.find?, hp]
      rw [he]; exact ih hps

theorem lookup_not_found (f : List (String × Value)) (k : String)
    (h : k ∉ keysOf f) : lookupJs f k = .vUndefined := by
  induction f with
  | nil => rfl
  | cons p ps ih =>
    by_cases hp : p.1 == k
    · have hk : k ∈ keysOf (p :: ps) := by
        simp only [keysOf, List.map_cons, List.mem_cons]
        exact Or.inl (eq_of_beq hp).symm
      exact absurd hk h
    · have he : lookupJs (p :: ps) k = lookupJs ps k := by
        simp [lookupJs, List.find?, hp]
      rw [he]
      refine ih ?_
      intro hm
      exact h (by simp only [keysOf, List.map_cons, List.mem_cons]; exact Or.inr hm)

theorem lookup_found_not_undef (f : List (String × Value)) (k : String)
    (hw : wfFields f = true) (hk : k ∈ keysOf f) :
    isUndef (lookupJs f k) = false := by
  induction f with
  | nil => simp [keysOf] at hk
  | cons p ps ih =>
    obtain ⟨hnu, _, _, hps⟩ := wfFields_parts p ps hw
    by_cases hp : p.1 == k
    · have he : lookupJs (p :: ps) k = p.2 := by simp [lookupJs, List.find?, hp]
      rw [he]; exact hnu
    · have hne : ¬ p.1 = k := by simpa using hp
      have he : lookupJs (p :: ps) k = lookupJs ps k := by
        simp [lookupJs, List.find?, hp]
      rw [he]
      refine ih hps ?_
      rcases (by simpa only [keysOf, List.map_cons, List.mem_cons] using hk :
          k = p.1 ∨ k ∈ keysOf ps) with h1 | h1
      · exact absurd h1.symm hne
      · exact h1

theorem wfElems_mem (a : List Value) (h : wfElems a = true) (x : Value)
    (hx : x ∈ a) : wfDoc x = true := by
  induction a with
  | nil => exact absurd hx (by simp)
  | cons y ys ih =>
    rw [wfElems, Bool.and_eq_true] at h
    rcases List.mem_cons.mp hx with rfl | hx2
    · exact h.1
    · exact ih h.2 hx2

theorem wfDoc_arrGet (a : List Value) (i : Nat) (h : wfElems a = true) :
    wfDoc (arrGet a i) = true := by
  cases hg : a.get? i with
  | none =>
    have hg2 : a[i]? = none := by rw [← List.get?_eq_getElem?]; exact hg
    have he : arrGet a i = .vUndefined := by
      simp [arrGet, List.get?_eq_getElem?, hg2]
    rw [he]; rfl
  | some x =>
    have hm : x ∈ a := List.get?_mem hg
    have hg2 : a[i]? = some x := by rw [← List.get?_eq_getElem?]; exact hg
    have he : arrGet a i = x := by simp [arrGet, List.get?_eq_getElem?, hg2]
    rw [he]; exact wfElems_mem a h x hm

theorem deepEqual_undef_right (v : Value) :
    deepEqual v .vUndefined = isUndef v := by
  cases v <;> simp [deepEqual, strictEq, looseNull, isUndef]

theorem deepEqual_obj_obj (f1 f2 : List (String × Value)) :
    deepEqual (.vObj f1) (.vObj f2)
      = ((keysOf f1).length == (keysOf f2).length
          && deepEqualKeys (keysOf f1) f1 f2) := by
  rw [deepEqual.eq_def]
  rfl

theorem deepEqual_arr_arr (a1 a2 : List Value) :
    deepEqual (.vArr a1) (.vArr a2)
      = (a1.length == a2.length && deepEqualElems a1 a2) := by
  rw [deepEqual.eq_def]
  rfl

theorem deepEqualKeys_eq_all (ks : List String) (f1 f2 : List (String × Value)) :
    deepEqualKeys ks f1 f2
      = ks.all (fun k => deepEqual (lookupJs f1 k) (lookupJs f2 k)) := by
  induction ks with
  | nil => simp [deepEqualKeys]
  | cons k rest ih => rw [deepEqualKeys, List.all_cons, ih]

theorem deepEqualElems_comm_of (b1 b2 : List Value)
    (hpt : ∀ x ∈ b1, ∀ y ∈ b2, deepEqual x y = deepEqual y x)
    (hl : b1.length = b2.length) :
    deepEqualElems b1 b2 = deepEqualElems b2 b1 := by
  induction b1 generalizing b2 with
  | nil =>
    cases b2 with
    | nil => rfl
    | cons y ys => simp at hl
  | cons x xs ih =>
    cases b2 with
    | nil => simp at hl
    | cons y ys =>
      rw [deepEqualElems, deepEqualElems]
      rw [hpt x (by simp) y (by simp)]
      rw [ih ys (fun u hu v hv => hpt u (by simp [hu]) v (by simp [hv]))
        (by simpa using hl)]

theorem deepEqual_comm_aux :
    ∀ n, ∀ v1 v2 : Value, sizeOf v1 + sizeOf v2 ≤ n →
      wfDoc v1 = true → wfDoc v2 = true →
      deepEqual v1 v2 = deepEqual v2 v1 := by
  intro n
  induction n with
  | zero =>
    intro v1 v2 hsize
    exfalso
    cases v1 <;> simp at hsize <;> omega
  | succ n ih =>
    intro v1 v2 hsize hw1 hw2
    cases v1 <;> cases v2 <;>
      try (simp [deepEqual, strictEq, looseNull]; done)
    case vNum.vNum a b =>
      by_cases h : a = b
      · rw [h]
      · simp [deepEqual, strictEq, looseNull, beq_false_of_ne a b h,
          beq_false_of_ne b a (fun e => h e.symm)]
    case vStr.vStr a b =>
      by_cases h : a = b
      · rw [h]
      · simp [deepEqual, strictEq, looseNull, beq_false_of_ne a b h,
          beq_false_of_ne b a (fun e => h e.symm)]
    case vBool.vBool a b =>
      by_cases h : a = b
      · rw [h]
      · simp [deepEqual, strictEq, looseNull, beq_false_of_ne a b h,
          beq_false_of_ne b a (fun e => h e.symm)]
    case vDate.vDate a b =>
      by_cases h : a = b
      · rw [h]
      · simp [deepEqual, strictEq, looseNull, beq_false_of_ne a b h,
          beq_false_of_ne b a (fun e => h e.symm)]
    case vArr.vArr a1 a2 =>
      have hw1e : wfElems a1 = true := by simpa [wfDoc] using hw1
      have hw2e : wfElems a2 = true := by simpa [wfDoc] using hw2
      have hpt : ∀ x ∈ a1, ∀ y ∈ a2, deepEqual x y = deepEqual y x := by
        intro x hx y hy
        have hsx := List.sizeOf_lt_of_mem hx
        have hsy := List.sizeOf_lt_of_mem hy
        have h1 : sizeOf (Value.vArr a1) = 1 + sizeOf a1 := by simp
        have h2 : sizeOf (Value.vArr a2) = 1 + sizeOf a2 := by simp
        exact ih x y (by omega) (wfElems_mem a1 hw1e x hx)
          (wfElems_mem a2 hw2e y hy)
      rw [deepEqual_arr_arr, deepEqual_arr_arr]
      by_cases hl : a1.length = a2.length
      · rw [deepEqualElems_comm_of a1 a2 hpt hl, hl]
      · rw [beq_false_of_ne a1.length a2.length hl,
          beq_false_of_ne a2.length a1.length (fun e => hl e.symm)]
        simp
    case vObj.vObj f1 f2 =>
      have hwf1 : wfFields f1 = true := by simpa [wfDoc] using hw1
      have hwf2 : wfFields f2 = true := by simpa [wfDoc] using hw2
      have hnd1 := wfFields_nodup f1 hwf1
      have hnd2 := wfFields_nodup f2 hwf2
      have hpt : ∀ k, deepEqual (lookupJs f1 k) (lookupJs f2 k)
          = deepEqual (lookupJs f2 k) (lookupJs f1 k) := by
        intro k
        have e1 := sizeOf_lookupJs_le f1 k
        have e2 := sizeOf_lookupJs_le f2 k
        have h1 : sizeOf (Value.vObj f1) = 1 + sizeOf f1 := by simp
        have h2 : sizeOf (Value.vObj f2) = 1 + sizeOf f2 := by simp
        exact ih _ _ (by omega) (wfDoc_lookup f1 k hwf1) (wfDoc_lookup f2 k hwf2)
      rw [deepEqual_obj_obj, deepEqual_obj_obj]
      by_cases hl : (keysOf f1).length = (keysOf f2).length
      · by_cases hsub : ∀ x ∈ keysOf f1, x ∈ keysOf f2
        · have hsub2 := mem_of_sub_len_eq _ _ hnd1 hl hsub
          have hiff : ∀ x, x ∈ keysOf f1 ↔ x ∈ keysOf f2 :=
            fun x => ⟨fun hx => hsub x hx, fun hx => hsub2 x hx⟩
          have hkeys : deepEqualKeys (keysOf f1) f1 f2
              = deepEqualKeys (keysOf f2) f2 f1 := by
            rw [deepEqualKeys_eq_all, deepEqualKeys_eq_all,
              all_congr_mem _ _ _ hiff]
            exact all_congr_fn _ _ _ (fun k _ => hpt k)
          rw [hkeys, hl]
        · push_neg at hsub
          obtain ⟨k0, hk0m, hk0n⟩ := hsub
          have hf1 : deepEqual (lookupJs f1 k0) (lookupJs f2 k0) = false := by
            rw [lookup_not_found f2 k0 hk0n, deepEqual_undef_right,
              lookup_found_not_undef f1 k0 hwf1 hk0m]
          have hall1 : (keysOf f1).all
              (fun k => deepEqual (lookupJs f1 k) (lookupJs f2 k)) = false :=
            all_false_of_mem _ _ k0 hk0m hf1
          have hnot2 : ¬ ∀ x ∈ keysOf f2, x ∈ keysOf f1 := by
            intro hsub2
            exact hk0n (mem_of_sub_len_eq _ _ hnd2 hl.symm hsub2 k0 hk0m)
          push_neg at hnot2
          obtain ⟨k1, hk1m, hk1n⟩ := hnot2
          have hf2 : deepEqual (lookupJs f2 k1) (lookupJs f1 k1) = false := by
            rw [lookup_not_found f1 k1 hk1n, deepEqual_undef_right,
              lookup_found_not_undef f2 k1 hwf2 hk1m]
          have hall2 : (keysOf f2).all
              (fun k => deepEqual (lookupJs f2 k) (lookupJs f1 k)) = false :=
            all_false_of_mem _ _ k1 hk1m hf2
          rw [deepEqualKeys_eq_all, deepEqualKeys_eq_all, hall1, hall2]
          simp
      · rw [beq_false_of_ne (keysOf f1).length (keysOf f2).length hl,
          beq_false_of_ne (keysOf f2).length (keysOf f1).length
            (fun e => hl e.symm)]
        simp

theorem deepEqual_comm (v1 v2 : Value) (h1 : wfDoc v1 = true)
    (h2 : wfDoc v2 = true) : deepEqual v1 v2 = deepEqual v2 v1 :=
  deepEqual_comm_aux (sizeOf v1 + sizeOf v2) v1 v2 (Nat.le_refl _) h1 h2

theorem keysOf_cons (p : String × Value) (ps : List (String × Value)) :
    keysOf (p :: ps) = p.1 :: keysOf ps := rfl

theorem length_eq_of_nodup_mem_iff {α : Type} (l1 l2 : List α) (h1 : l1.Nodup)
    (h2 : l2.Nodup) (h : ∀ x, x ∈ l1 ↔ x ∈ l2) : l1.length = l2.length := by
  have p1 := (h1.subperm fun x hx => (h x).mp hx).length_le
  have p2 := (h2.subperm fun x hx => (h x).mpr hx).length_le
  omega

theorem isUndef_scrub (ex : List String) (v : Value) :
    isUndef (scrub ex v) = isUndef v := by
  cases v <;> simp [scrub, isUndef]

theorem scrub_obj (ex : List String) (f : List (String × Value)) :
    scrub ex (.vObj f) = .vObj (scrubFields ex f) := by simp [scrub]

theorem scrub_arr (ex : List String) (a : List Value) :
    scrub ex (.vArr a) = .vArr (scrubElems ex a) := by simp [scrub]

theorem scrubElems_length (ex : List String) (l : List Value) :
    (scrubElems ex l).length = l.length := by
  induction l with
  | nil => rfl
  | cons x xs ih => rw [scrubElems]; simp [ih]

theorem arrGet_scrubElems (ex : List String) (l : List Value) (i : Nat) :
    arrGet (scrubElems ex l) i = scrub ex (arrGet l i) := by
  induction l generalizing i with
  | nil => rfl
  | cons x xs ih =>
    cases i with
    | zero => rfl
    | succ j =>
      have h1 : arrGet (scrub ex x :: scrubElems ex xs) (j + 1)
          = arrGet (scrubElems ex xs) j := rfl
      have h2 : arrGet (x :: xs) (j + 1) = arrGet xs j := rfl
      rw [scrubElems, h1, h2, ih]

theorem mem_keysOf_scrubFields (ex : List String) (f : List (String × Value))
    (k : String) :
    k ∈ keysOf (scrubFields ex f) ↔ (retainedKey ex k = true ∧ k ∈ keysOf f) := by
  induction f with
  | nil => simp [scrubFields, keysOf]
  | cons p ps ih =>
    rw [scrubFields]
    by_cases hr : retainedKey ex p.1 = true
    · rw [if_pos hr, keysOf_cons, keysOf_cons, List.mem_cons, List.mem_cons]
      constructor
      · intro h
        rcases h with rfl | h2
        · exact ⟨hr, Or.inl rfl⟩
        · obtain ⟨ha, hb⟩ := ih.mp h2
          exact ⟨ha, Or.inr hb⟩
      · rintro ⟨ha, rfl | h2⟩
        · exact Or.inl rfl
        · exact Or.inr (ih.mpr ⟨ha, h2⟩)
    · rw [if_neg hr, keysOf_cons, List.mem_cons, ih]
      constructor
      · intro ⟨ha, hb⟩
        exact ⟨ha, Or.inr hb⟩
      · rintro ⟨ha, rfl | h2⟩
        · exact absurd ha hr
        · exact ⟨ha, h2⟩

theorem nodup_keysOf_scrubFields (ex : List String) (f : List (String × Value))
    (h : (keysOf f).Nodup) : (keysOf (scrubFields ex f)).Nodup := by
  induction f with
  | nil => simp [scrubFields, keysOf]
  | cons p ps ih =>
    rw [keysOf_cons, List.nodup_cons] at h
    rw [scrubFields]
    by_cases hr : retainedKey ex p.1 = true
    · rw [if_pos hr, keysOf_cons, List.nodup_cons]
      constructor
      · intro hm
        exact h.1 ((mem_keysOf_scrubFields ex ps p.1).mp hm).2
      · exact ih h.2
    · rw [if_neg hr]
      exact ih h.2

theorem lookup_scrubFields (ex : List String) (f : List (String × Value))
    (k : String) (hk : retainedKey ex k = true) :
    lookupJs (scrubFields ex f) k = scrub ex (lookupJs f k) := by
  induction f with
  | nil => rfl
  | cons p ps ih =>
    rw [scrubFields]
    by_cases hr : retainedKey ex p.1 = true
    · by_cases hp : p.1 == k
      · rw [if_pos hr]
        have h1 : lookupJs ((p.1, scrub ex p.2) :: scrubFields ex ps) k
            = scrub ex p.2 := by
          simp [lookupJs, List.find?, hp]
        have h2 : lookupJs (p :: ps) k = p.2 := by simp [lookupJs, List.find?, hp]
        rw [h1, h2]
      · rw [if_pos hr]
        have h1 : lookupJs ((p.1, scrub ex p.2) :: scrubFields ex ps) k
            = lookupJs (scrubFields ex ps) k := by
          simp [lookupJs, List.find?, hp]
        have h2 : lookupJs (p :: ps) k = lookupJs ps k := by
          simp [lookupJs, List.find?, hp]
        rw [h1, h2, ih]
    · rw [if_neg hr]
      have hp : (p.1 == k) = false := by
        cases hpk : p.1 == k
        · rfl
        · exact absurd (by rw [← eq_of_beq hpk] at hk; exact hk) hr
      have h2 : lookupJs (p :: ps) k = lookupJs ps k := by
        simp [lookupJs, List.find?, hp]
      rw [h2, ih]

theorem deepEqualElems_of_pointwise :
    ∀ (b1 b2 : List Value), b1.length = b2.length →
      (∀ j, j < b1.length → deepEqual (arrGet b1 j) (arrGet b2 j) = true) →
      deepEqualElems b1 b2 = true := by
  intro b1
  induction b1 with
  | nil =>
    intro b2 hl _
    cases b2 with
    | nil => simp [deepEqualElems]
    | cons y ys => simp at hl
  | cons x xs ih =>
    intro b2 hl hpt
    cases b2 with
    | nil => simp at hl
    | cons y ys =>
      rw [deepEqualElems, Bool.and_eq_true]
      constructor
      · exact hpt 0 (by simp)
      · refine ih ys (by simpa using hl) ?_
        intro j hj
        exact hpt (j + 1) (by simp [List.length_cons]; omega)

theorem deepEqualElems_pointwise (b1 : List Value) :
    ∀ (b2 : List Value), b1.length = b2.length →
      deepEqualElems b1 b2 = true →
      ∀ j, j < b1.length → deepEqual (arrGet b1 j) (arrGet b2 j) = true := by
  induction b1 with
  | nil =>
    intro b2 _ _ j hj
    simp at hj
  | cons x xs ih =>
    intro b2 hl h j hj
    cases b2 with
    | nil => simp at hl
    | cons y ys =>
      rw [deepEqualElems, Bool.and_eq_true] at h
      cases j with
      | zero => exact h.1
      | succ i =>
        exact ih ys (by simpa using hl) h.2 i (by simp at hj; omega)

theorem deepEqualKeys_of_pointwise (ks : List String)
    (f1 f2 : List (String × Value))
    (h : ∀ k ∈ ks, deepEqual (lookupJs f1 k) (lookupJs f2 k) = true) :
    deepEqualKeys ks f1 f2 = true := by
  rw [deepEqualKeys_eq_all]
  exact List.all_eq_true.mpr h

theorem deepEqualKeys_pointwise (ks : List String)
    (f1 f2 : List (String × Value)) (h : deepEqualKeys ks f1 f2 = true) :
    ∀ k ∈ ks, deepEqual (lookupJs f1 k) (lookupJs f2 k) = true := by
  rw [deepEqualKeys_eq_all] at h
  exact List.all_eq_true.mp h

theorem deepEqual_scrub_aux (ex : List String) :
    ∀ n, ∀ v1 v2 : Value, sizeOf v1 + sizeOf v2 ≤ n →
      wfDoc v1 = true → wfDoc v2 = true → deepEqual v1 v2 = true →
      deepEqual (scrub ex v1) (scrub ex v2) = true := by
  intro n
  induction n with
  | zero =>
    intro v1 v2 hsize
    exfalso
    cases v1 <;> simp at hsize <;> omega
  | succ n ih =>
    intro v1 v2 hsize hw1 hw2 hd
    cases v1 <;> cases v2 <;>
      first
      | (simpa [scrub] using hd)
      | (simp [deepEqual, strictEq, looseNull] at hd; done)
      | skip
    case vArr.vArr a1 a2 =>
      rw [deepEqual_arr_arr, Bool.and_eq_true] at hd
      obtain ⟨hlb, hde⟩ := hd
      have hl : a1.length = a2.length := by simpa using hlb
      have hw1e : wfElems a1 = true := by simpa [wfDoc] using hw1
      have hw2e : wfElems a2 = true := by simpa [wfDoc] using hw2
      have hpt := deepEqualElems_pointwise a1 a2 hl hde
      rw [scrub_arr, scrub_arr, deepEqual_arr_arr, Bool.and_eq_true]
      constructor
      · simp [scrubElems_length, hl]
      · refine deepEqualElems_of_pointwise _ _ ?_ ?_
        · rw [scrubElems_length, scrubElems_length, hl]
        · intro j hj
          rw [arrGet_scrubElems, arrGet_scrubElems]
          have hjl : j < a1.length := by simpa [scrubElems_length] using hj
          refine ih (arrGet a1 j) (arrGet a2 j) ?_ (wfDoc_arrGet a1 j hw1e)
            (wfDoc_arrGet a2 j hw2e) (hpt j hjl)
          have e1 := sizeOf_arrGet_le a1 j
          have e2 := sizeOf_arrGet_le a2 j
          have h1 : sizeOf (Value.vArr a1) = 1 + sizeOf a1 := by simp
          have h2 : sizeOf (Value.vArr a2) = 1 + sizeOf a2 := by simp
          omega
    case vObj.vObj f1 f2 =>
      rw [deepEqual_obj_obj, Bool.and_eq_true] at hd
      obtain ⟨hlb, hdk⟩ := hd
      have hl : (keysOf f1).length = (keysOf f2).length := by simpa using hlb
      have hwf1 : wfFields f1 = true := by simpa [wfDoc] using hw1
      have hwf2 : wfFields f2 = true := by simpa [wfDoc] using hw2
      have hnd1 := wfFields_nodup f1 hwf1
      have hnd2 := wfFields_nodup f2 hwf2
      have hpt := deepEqualKeys_pointwise _ f1 f2 hdk
      have hsub : ∀ x ∈ keysOf f1, x ∈ keysOf f2 := by
        intro x hx
        by_contra hxn
        have h1 := hpt x hx
        rw [lookup_not_found f2 x hxn, deepEqual_undef_right,
          lookup_found_not_undef f1 x hwf1 hx] at h1
        exact absurd h1 (by simp)
      have hsub2 := mem_of_sub_len_eq _ _ hnd1 hl hsub
      have hiff : ∀ x, x ∈ keysOf (scrubFields ex f1)
          ↔ x ∈ keysOf (scrubFields ex f2) := by
        intro x
        rw [mem_keysOf_scrubFields, mem_keysOf_scrubFields]
        constructor
        · intro ⟨hr, hm⟩
          exact ⟨hr, hsub x hm⟩
        · intro ⟨hr, hm⟩
          exact ⟨hr, hsub2 x hm⟩
      have hnds1 := nodup_keysOf_scrubFields ex f1 hnd1
      have hnds2 := nodup_keysOf_scrubFields ex f2 hnd2
      have hlens := length_eq_of_nodup_mem_iff _ _ hnds1 hnds2 hiff
      rw [scrub_obj, scrub_obj, deepEqual_obj_obj, Bool.and_eq_true]
      constructor
      · rw [hlens]
        simp
      · refine deepEqualKeys_of_pointwise _ _ _ ?_
        intro k hk
        obtain ⟨hr, hm⟩ := (mem_keysOf_scrubFields ex f1 k).mp hk
        rw [lookup_scrubFields ex f1 k hr, lookup_scrubFields ex f2 k hr]
        refine ih _ _ ?_ (wfDoc_lookup f1 k hwf1) (wfDoc_lookup f2 k hwf2)
          (hpt k hm)
        have e1 := sizeOf_lookupJs_le f1 k
        have e2 := sizeOf_lookupJs_le f2 k
        have h1 : sizeOf (Value.vObj f1) = 1 + sizeOf f1 := by simp
        have h2 : sizeOf (Value.vObj f2) = 1 + sizeOf f2 := by simp
        omega

theorem deepEqual_scrub (ex : List String) (v1 v2 : Value)
    (h1 : wfDoc v1 = true) (h2 : wfDoc v2 = true) (h : deepEqual v1 v2 = true) :
    deepEqual (scrub ex v1) (scrub ex v2) = true :=
  deepEqual_scrub_aux ex (sizeOf v1 + sizeOf v2) v1 v2 (Nat.le_refl _) h1 h2 h

theorem mem_foldl_insertUniq_of (xs : List String) :
    ∀ (acc : List String) (x : String),
      (x ∈ acc ∨ x ∈ xs) → x ∈ xs.foldl insertUniq acc := by
  induction xs with
  | nil =>
    intro acc x h
    rcases h with h | h
    · exact h
    · simp at h
  | cons y ys ih =>
    intro acc x h
    have hacc : ∀ z, z ∈ acc → z ∈ insertUniq acc y := by
      intro z hz
      rw [insertUniq]
      split_ifs
      · exact hz
      · exact List.mem_append.mpr (Or.inl hz)
    rcases h with h | h
    · exact ih (insertUniq acc y) x (Or.inl (hacc x h))
    · rcases List.mem_cons.mp h with heq | h2
      · refine ih (insertUniq acc y) x (Or.inl ?_)
        rw [insertUniq]
        split_ifs with hc
        · rw [heq]
          simpa using hc
        · exact List.mem_append.mpr (Or.inr (by simp [heq]))
      · exact ih (insertUniq acc y) x (Or.inr h2)

theorem mem_jsSetUnion_iff (ks1 ks2 : List String) (x : String) :
    x ∈ jsSetUnion ks1 ks2 ↔ (x ∈ ks1 ∨ x ∈ ks2) := by
  constructor
  · exact mem_jsSetUnion ks1 ks2 x
  · intro h
    exact mem_foldl_insertUniq_of (ks1 ++ ks2) [] x
      (Or.inr (List.mem_append.mpr h))

theorem nodup_foldl_insertUniq (xs : List String) :
    ∀ acc : List String, acc.Nodup → (xs.foldl insertUniq acc).Nodup := by
  induction xs with
  | nil =>
    intro acc h
    exact h
  | cons y ys ih =>
    intro acc h
    refine ih (insertUniq acc y) ?_
    rw [insertUniq]
    split_ifs with hc
    · exact h
    · have hy : y ∉ acc := by simpa using hc
      simp [List.nodup_append, h, hy]

theorem nodup_jsSetUnion (ks1 ks2 : List String) : (jsSetUnion ks1 ks2).Nodup :=
  nodup_foldl_insertUniq (ks1 ++ ks2) [] (by simp)

theorem jsSetUnion_comm_perm (ks1 ks2 : List String) :
    (jsSetUnion ks1 ks2).Perm (jsSetUnion ks2 ks1) := by
  rw [List.perm_ext_iff_of_nodup (nodup_jsSetUnion ks1 ks2)
    (nodup_jsSetUnion ks2 ks1)]
  intro a
  rw [mem_jsSetUnion_iff, mem_jsSetUnion_iff]
  exact Or.comm

theorem diffKeys_congr_perm (ks1 ks2 : List String)
    (f1 f2 : List (String × Value)) (ex : List String) (pp : String)
    (h : ks1.Perm ks2) :
    (diffKeys ks1 f1 f2 ex pp).Perm (diffKeys ks2 f1 f2 ex pp) := by
  induction h with
  | nil => exact List.Perm.refl _
  | cons x _ ih =>
    rw [diffKeys, diffKeys]
    exact List.Perm.append_left _ ih
  | swap x y l =>
    rw [diffKeys, diffKeys, diffKeys, diffKeys]
    rw [← List.append_assoc, ← List.append_assoc]
    exact List.Perm.append_right _ List.perm_append_comm
  | trans _ _ ih1 ih2 => exact ih1.trans ih2

theorem bool_eq_false_of_not {b : Bool} (h : ¬ b = true) : b = false := by
  cases hb : b
  · rfl
  · exact absurd hb h

theorem diffObjects_swap :
    ∀ (f1 f2 : List (String × Value)) (ex : List String) (pp : String),
      wfFields f1 = true → wfFields f2 = true →
      (diffObjects f2 f1 ex pp).Perm
        ((diffObjects f1 f2 ex pp).map swapChange) := by
  refine diffObjects.induct
    (fun f1 f2 ex pp =>
      wfFields f1 = true → wfFields f2 = true →
      (diffObjects f2 f1 ex pp).Perm
        ((diffObjects f1 f2 ex pp).map swapChange))
    (fun ks f1 f2 ex pp =>
      wfFields f1 = true → wfFields f2 = true →
      (diffKeys ks f2 f1 ex pp).Perm
        ((diffKeys ks f1 f2 ex pp).map swapChange))
    (fun k v1 v2 ex cur =>
      wfDoc v1 = true → wfDoc v2 = true →
      (diffValue k v2 v1 ex cur).Perm
        ((diffValue k v1 v2 ex cur).map swapChange))
    (fun a1 a2 path ex =>
      wfElems a1 = true → wfElems a2 = true →
      (compareArrays a2 a1 path ex).Perm
        ((compareArrays a1 a2 path ex).map swapChange))
    (fun a1 a2 path ex i rem =>
      wfElems a1 = true → wfElems a2 = true →
      (arrLoop a2 a1 path ex i rem).Perm
        ((arrLoop a1 a2 path ex i rem).map swapChange))
    (fun v1 v2 itemPath ex =>
      wfDoc v1 = true → wfDoc v2 = true →
      (arrItemDiff v2 v1 itemPath ex).Perm
        ((arrItemDiff v1 v2 itemPath ex).map swapChange))
    ?_ ?_ ?_ ?_ ?_ ?_ ?_ ?_ ?_ ?_ ?_ ?_ ?_
  · -- diffObjects: reorder the key union, then use the key-loop motive
    intro od nd ex pp hm2 hw1 hw2
    rw [diffObjects, diffObjects]
    exact (diffKeys_congr_perm _ _ nd od ex pp
      (jsSetUnion_comm_perm (keysOf nd) (keysOf od))).trans (hm2 hw1 hw2)
  · -- diffKeys on the empty key list
    intro f1 f2 ex pp hw1 hw2
    simp [diffKeys]
  · -- diffKeys cons: guards agree in both directions
    intro f1 f2 ex pp k rest h3 h2 hw1 hw2
    rw [diffKeys, diffKeys, List.map_append]
    refine List.Perm.append ?_ (h2 hw1 hw2)
    by_cases hex : ex.contains k = true
    · rw [if_pos hex, if_pos hex]
      simp
    · rw [if_neg hex, if_neg hex]
      by_cases htr : (k == "updatedAt" || k == "createdAt" || k == "id") = true
      · rw [if_pos htr, if_pos htr]
        simp
      · rw [if_neg htr, if_neg htr]
        exact h3 (wfDoc_lookup f1 k hw1) (wfDoc_lookup f2 k hw2)
  · -- diffValue: deep-equal both ways, nothing emitted
    intro k v1 v2 ex cur hde hw1 hw2
    have hde2 : deepEqual v2 v1 = true := by
      rw [deepEqual_comm v2 v1 hw2 hw1]
      exact hde
    simp [diffValue.eq_def, hde, hde2]
  · -- diffValue: two plain objects recurse with the roles swapped
    intro k ex cur g1 g2 hde h1 hw1 hw2
    have hwf1 : wfFields g1 = true := by simpa [wfDoc] using hw1
    have hwf2 : wfFields g2 = true := by simpa [wfDoc] using hw2
    have hdeF : deepEqual (Value.vObj g1) (Value.vObj g2) = false :=
      bool_eq_false_of_not hde
    have hde2 : deepEqual (Value.vObj g2) (Value.vObj g1) = false :=
      (deepEqual_comm (Value.vObj g2) (Value.vObj g1) hw2 hw1).trans hdeF
    simp only [diffValue.eq_def, hdeF, hde2, Bool.false_eq_true, if_false]
    exact h1 hwf1 hwf2
  · -- diffValue: two arrays go to compareArrays with the roles swapped
    intro k ex cur a1 a2 hde h4 hw1 hw2
    have hw1e : wfElems a1 = true := by simpa [wfDoc] using hw1
    have hw2e : wfElems a2 = true := by simpa [wfDoc] using hw2
    have hdeF : deepEqual (Value.vArr a1) (Value.vArr a2) = false :=
      bool_eq_false_of_not hde
    have hde2 : deepEqual (Value.vArr a2) (Value.vArr a1) = false :=
      (deepEqual_comm (Value.vArr a2) (Value.vArr a1) hw2 hw1).trans hdeF
    simp only [diffValue.eq_def, hdeF, hde2, Bool.false_eq_true, if_false]
    exact h4 hw1e hw2e
  · -- diffValue: leaf changes swap their serialized endpoints
    intro k v1 v2 ex cur hde hnobj hnarr hw1 hw2
    have hdeF : deepEqual v1 v2 = false := bool_eq_false_of_not hde
    have hde2 : deepEqual v2 v1 = false :=
      (deepEqual_comm v2 v1 hw2 hw1).trans hdeF
    have hne2 : ¬ deepEqual v2 v1 = true := by simp [hde2]
    rw [diffValue_leaf_eq k v2 v1 ex cur hne2
      (fun g1 g2 e2 e1 => hnobj g2 g1 e1 e2)
      (fun b1 b2 e2 e1 => hnarr b2 b1 e1 e2)]
    rw [diffValue_leaf_eq k v1 v2 ex cur hde hnobj hnarr]
    simp [swapChange]
  · -- compareArrays: the synthetic length change swaps, the loop follows
    intro a1 a2 path ex hm5 hw1 hw2
    rw [compareArrays, compareArrays, List.map_append]
    refine List.Perm.append ?_ ?_
    · by_cases hl : a1.length = a2.length
      · rw [if_neg (by omega : ¬ a2.length ≠ a1.length),
          if_neg (by omega : ¬ a1.length ≠ a2.length)]
        simp
      · rw [if_pos (by omega : a2.length ≠ a1.length), if_pos hl]
        simp [swapChange]
    · rw [Nat.max_comm a2.length a1.length]
      exact hm5 hw1 hw2
  · -- arrLoop: no indices left
    intro a1 a2 path ex i hw1 hw2
    simp [arrLoop]
  · -- arrLoop: one index, then the rest
    intro a1 a2 path ex i n h6 h5 hw1 hw2
    rw [arrLoop, arrLoop, List.map_append]
    exact List.Perm.append
      (h6 (wfDoc_arrGet a1 i hw1) (wfDoc_arrGet a2 i hw2)) (h5 hw1 hw2)
  · -- arrItemDiff: deep-equal both ways, nothing emitted
    intro v1 v2 itemPath ex hde hw1 hw2
    have hde2 : deepEqual v2 v1 = true := by
      rw [deepEqual_comm v2 v1 hw2 hw1]
      exact hde
    simp [arrItemDiff.eq_def, hde, hde2]
  · -- arrItemDiff: two plain objects recurse with the roles swapped
    intro itemPath ex g1 g2 hde h1 hw1 hw2
    have hwf1 : wfFields g1 = true := by simpa [wfDoc] using hw1
    have hwf2 : wfFields g2 = true := by simpa [wfDoc] using hw2
    have hdeF : deepEqual (Value.vObj g1) (Value.vObj g2) = false :=
      bool_eq_false_of_not hde
    have hde2 : deepEqual (Value.vObj g2) (Value.vObj g1) = false :=
      (deepEqual_comm (Value.vObj g2) (Value.vObj g1) hw2 hw1).trans hdeF
    simp only [arrItemDiff.eq_def, hdeF, hde2, Bool.false_eq_true, if_false]
    exact h1 hwf1 hwf2
  · -- arrItemDiff: leaf changes swap their serialized endpoints
    intro v1 v2 itemPath ex hde hnobj hw1 hw2
    have hdeF : deepEqual v1 v2 = false := bool_eq_false_of_not hde
    have hde2 : deepEqual v2 v1 = false :=
      (deepEqual_comm v2 v1 hw2 hw1).trans hdeF
    have hne2 : ¬ deepEqual v2 v1 = true := by simp [hde2]
    rw [arrItemDiff_leaf_eq v2 v1 itemPath ex hne2
      (fun g1 g2 e2 e1 => hnobj g2 g1 e1 e2)]
    rw [arrItemDiff_leaf_eq v1 v2 itemPath ex hde hnobj]
    simp [swapChange]

theorem deepEqual_undef_left (v : Value) :
    deepEqual .vUndefined v = isUndef v := by
  cases v <;> simp [deepEqual, strictEq, looseNull, isUndef]

theorem diffObjects_empty_scrub :
    ∀ (f1 f2 : List (String × Value)) (ex : List String) (pp : String),
      wfFields f1 = true → wfFields f2 = true →
      diffObjects f1 f2 ex pp = [] →
      deepEqual (.vObj (scrubFields ex f1)) (.vObj (scrubFields ex f2)) = true := by
  refine diffObjects.induct
    (fun f1 f2 ex pp =>
      wfFields f1 = true → wfFields f2 = true →
      diffObjects f1 f2 ex pp = [] →
      deepEqual (.vObj (scrubFields ex f1)) (.vObj (scrubFields ex f2)) = true)
    (fun ks f1 f2 ex pp =>
      wfFields f1 = true → wfFields f2 = true →
      diffKeys ks f1 f2 ex pp = [] →
      ∀ k ∈ ks, retainedKey ex k = true →
        deepEqual (scrub ex (lookupJs f1 k)) (scrub ex (lookupJs f2 k)) = true)
    (fun k v1 v2 ex cur =>
      wfDoc v1 = true → wfDoc v2 = true →
      diffValue k v1 v2 ex cur = [] →
      deepEqual (scrub ex v1) (scrub ex v2) = true)
    (fun a1 a2 path ex =>
      wfElems a1 = true → wfElems a2 = true →
      compareArrays a1 a2 path ex = [] →
      deepEqual (.vArr (scrubElems ex a1)) (.vArr (scrubElems ex a2)) = true)
    (fun a1 a2 path ex i rem =>
      wfElems a1 = true → wfElems a2 = true →
      arrLoop a1 a2 path ex i rem = [] →
      ∀ j, i ≤ j → j < i + rem →
        deepEqual (scrub ex (arrGet a1 j)) (scrub ex (arrGet a2 j)) = true)
    (fun v1 v2 itemPath ex =>
      wfDoc v1 = true → wfDoc v2 = true →
      arrItemDiff v1 v2 itemPath ex = [] →
      deepEqual (scrub ex v1) (scrub ex v2) = true)
    ?_ ?_ ?_ ?_ ?_ ?_ ?_ ?_ ?_ ?_ ?_ ?_ ?_
  · -- diffObjects: key sets of the scrubbed sides agree and values match
    intro od nd ex pp hm2 hw1 hw2 hempty
    rw [diffObjects] at hempty
    have hpt := hm2 hw1 hw2 hempty
    have hnd1 := wfFields_nodup od hw1
    have hnd2 := wfFields_nodup nd hw2
    have hmem12 : ∀ k, k ∈ keysOf (scrubFields ex od)
        → k ∈ keysOf (scrubFields ex nd) := by
      intro k hk
      obtain ⟨hr, hm⟩ := (mem_keysOf_scrubFields ex od k).mp hk
      rw [mem_keysOf_scrubFields]
      refine ⟨hr, ?_⟩
      by_contra hkn
      have hu : k ∈ jsSetUnion (keysOf od) (keysOf nd) :=
        (mem_jsSetUnion_iff _ _ k).mpr (Or.inl hm)
      have h1 := hpt k hu hr
      have hsu : scrub ex Value.vUndefined = Value.vUndefined := rfl
      rw [lookup_not_found nd k hkn, hsu, deepEqual_undef_right, isUndef_scrub,
        lookup_found_not_undef od k hw1 hm] at h1
      exact absurd h1 (by simp)
    have hmem21 : ∀ k, k ∈ keysOf (scrubFields ex nd)
        → k ∈ keysOf (scrubFields ex od) := by
      intro k hk
      obtain ⟨hr, hm⟩ := (mem_keysOf_scrubFields ex nd k).mp hk
      rw [mem_keysOf_scrubFields]
      refine ⟨hr, ?_⟩
      by_contra hkn
      have hu : k ∈ jsSetUnion (keysOf od) (keysOf nd) :=
        (mem_jsSetUnion_iff _ _ k).mpr (Or.inr hm)
      have h1 := hpt k hu hr
      have hsu : scrub ex Value.vUndefined = Value.vUndefined := rfl
      rw [lookup_not_found od k hkn, hsu, deepEqual_undef_left, isUndef_scrub,
        lookup_found_not_undef nd k hw2 hm] at h1
      exact absurd h1 (by simp)
    have hiff : ∀ k, k ∈ keysOf (scrubFields ex od)
        ↔ k ∈ keysOf (scrubFields ex nd) :=
      fun k => ⟨hmem12 k, hmem21 k⟩
    have hnds1 := nodup_keysOf_scrubFields ex od hnd1
    have hnds2 := nodup_keysOf_scrubFields ex nd hnd2
    have hlens := length_eq_of_nodup_mem_iff _ _ hnds1 hnds2 hiff
    rw [deepEqual_obj_obj, Bool.and_eq_true]
    constructor
    · rw [hlens]
      simp
    · refine deepEqualKeys_of_pointwise _ _ _ ?_
      intro k hk
      obtain ⟨hr, hm⟩ := (mem_keysOf_scrubFields ex od k).mp hk
      rw [lookup_scrubFields ex od k hr, lookup_scrubFields ex nd k hr]
      exact hpt k ((mem_jsSetUnion_iff _ _ k).mpr (Or.inl hm)) hr
  · -- diffKeys on the empty key list
    intro f1 f2 ex pp hw1 hw2 hempty k hk
    simp at hk
  · -- diffKeys cons: a retained key's diffValue must itself be empty
    intro f1 f2 ex pp k rest h3 h2 hw1 hw2 hempty k2 hk2 hr2
    rw [diffKeys, List.append_eq_nil] at hempty
    obtain ⟨hhead, htail⟩ := hempty
    rcases List.mem_cons.mp hk2 with heq | hmem
    · have hrk : retainedKey ex k = true := by rw [← heq]; exact hr2
      have hor : (ex.contains k
          || (k == "updatedAt" || k == "createdAt" || k == "id")) = false := by
        have h := hrk
        rw [retainedKey] at h
        simpa using h
      have hex : ex.contains k = false := by
        cases hc : ex.contains k
        · rfl
        · rw [hc] at hor
          simp at hor
      have htrio : (k == "updatedAt" || k == "createdAt" || k == "id") = false := by
        cases hc : (k == "updatedAt" || k == "createdAt" || k == "id")
        · rfl
        · rw [hc] at hor
          simp at hor
      rw [if_neg (by simpa using hex), if_neg (by simpa using htrio)] at hhead
      simp only [dite_eq_ite] at h3
      have hres := h3 (wfDoc_lookup f1 k hw1) (wfDoc_lookup f2 k hw2) hhead
      rw [heq]
      exact hres
    · exact h2 hw1 hw2 htail k2 hmem hr2
  · -- diffValue: deep-equal values stay deep-equal after scrubbing
    intro k v1 v2 ex cur hde hw1 hw2 hempty
    exact deepEqual_scrub ex v1 v2 hw1 hw2 hde
  · -- diffValue: two plain objects recurse
    intro k ex cur g1 g2 hde h1 hw1 hw2 hempty
    have hdeF : deepEqual (Value.vObj g1) (Value.vObj g2) = false :=
      bool_eq_false_of_not hde
    simp only [diffValue.eq_def, hdeF, Bool.false_eq_true, if_false] at hempty
    rw [scrub_obj, scrub_obj]
    exact h1 (by simpa [wfDoc] using hw1) (by simpa [wfDoc] using hw2) hempty
  · -- diffValue: two arrays go to compareArrays
    intro k ex cur a1 a2 hde h4 hw1 hw2 hempty
    have hdeF : deepEqual (Value.vArr a1) (Value.vArr a2) = false :=
      bool_eq_false_of_not hde
    simp only [diffValue.eq_def, hdeF, Bool.false_eq_true, if_false] at hempty
    rw [scrub_arr, scrub_arr]
    exact h4 (by simpa [wfDoc] using hw1) (by simpa [wfDoc] using hw2) hempty
  · -- diffValue: a leaf change is never the empty list
    intro k v1 v2 ex cur hde hnobj hnarr hw1 hw2 hempty
    rw [diffValue_leaf_eq k v1 v2 ex cur hde hnobj hnarr] at hempty
    simp at hempty
  · -- compareArrays: equal lengths and an empty index loop
    intro a1 a2 path ex hm5 hw1 hw2 hempty
    rw [compareArrays, List.append_eq_nil] at hempty
    obtain ⟨hhead, hloop⟩ := hempty
    have hl : a1.length = a2.length := by
      by_contra hne
      rw [if_pos hne] at hhead
      simp at hhead
    have hpt := hm5 hw1 hw2 hloop
    rw [deepEqual_arr_arr, Bool.and_eq_true]
    constructor
    · rw [scrubElems_length, scrubElems_length, hl]
      simp
    · refine deepEqualElems_of_pointwise _ _ ?_ ?_
      · rw [scrubElems_length, scrubElems_length, hl]
      · intro j hj
        rw [arrGet_scrubElems, arrGet_scrubElems]
        rw [scrubElems_length] at hj
        have hjm : j < max a1.length a2.length :=
          Nat.lt_of_lt_of_le hj (Nat.le_max_left _ _)
        exact hpt j (Nat.zero_le j) (by omega)
  · -- arrLoop: no indices left
    intro a1 a2 path ex i hw1 hw2 hempty j hij hjlt
    omega
  · -- arrLoop: the current index, then the rest
    intro a1 a2 path ex i n h6 h5 hw1 hw2 hempty j hij hjlt
    rw [arrLoop, List.append_eq_nil] at hempty
    obtain ⟨hhead, htail⟩ := hempty
    by_cases hj : j = i
    · subst hj
      exact h6 (wfDoc_arrGet a1 _ hw1) (wfDoc_arrGet a2 _ hw2) hhead
    · exact h5 hw1 hw2 htail j (by omega) (by omega)
  · -- arrItemDiff: deep-equal items stay deep-equal after scrubbing
    intro v1 v2 itemPath ex hde hw1 hw2 hempty
    exact deepEqual_scrub ex v1 v2 hw1 hw2 hde
  · -- arrItemDiff: two plain objects recurse
    intro itemPath ex g1 g2 hde h1 hw1 hw2 hempty
    have hdeF : deepEqual (Value.vObj g1) (Value.vObj g2) = false :=
      bool_eq_false_of_not hde
    simp only [arrItemDiff.eq_def, hdeF, Bool.false_eq_true, if_false] at hempty
    rw [scrub_obj, scrub_obj]
    exact h1 (by simpa [wfDoc] using hw1) (by simpa [wfDoc] using hw2) hempty
  · -- arrItemDiff: a leaf change is never the empty list
    intro v1 v2 itemPath ex hde hnobj hw1 hw2 hempty
    rw [arrItemDiff_leaf_eq v1 v2 itemPath ex hde hnobj] at hempty
    simp at hempty

/-- C5 counterexample.  First part: `{id: 1}` and `{id: 2}` are not deep-equal,
yet their diff is empty, because the key loop skips the housekeeping name
`id` — non-emptiness fails as stated.  Second part: `{x: {b: 1}}` and
`{x: {a: undefined}}` are not deep-equal and their diff is non-empty, but the
reverse diff is empty — `deepEqual` iterates only the first object's keys, so
a stored `undefined` makes it (and the diff's path set) asymmetric. -/
theorem diff_antisym_counterexample :
    (deepEqual (.vObj [("id", .vNum 1)]) (.vObj [("id", .vNum 2)]) = false ∧
      calculateDiff (some [("id", .vNum 1)]) (some [("id", .vNum 2)]) [] ""
        = []) ∧
    (deepEqual (.vObj [("x", .vObj [("b", .vNum 1)])])
        (.vObj [("x", .vObj [("a", .vUndefined)])]) = false ∧
      calculateDiff (some [("x", .vObj [("b", .vNum 1)])])
        (some [("x", .vObj [("a", .vUndefined)])]) [] "" ≠ [] ∧
      calculateDiff (some [("x", .vObj [("a", .vUndefined)])])
        (some [("x", .vObj [("b", .vNum 1)])]) [] "" = []) := by
  refine ⟨⟨?_, ?_⟩, ?_, ?_, ?_⟩ <;>
    simp [calculateDiff, diffObjects, diffKeys, diffValue, deepEqual,
      deepEqualKeys, strictEq, looseNull, jsSetUnion, insertUniq, keysOf,
      lookupJs, List.find?, serializeValue]

/-- C5 (amended): for well-formed documents — duplicate-free keys and no
stored `undefined` at any depth, as JSON-backed Payload documents are —
`calculateDiff(B, A, [])` is a permutation of `calculateDiff(A, B, [])` with
every change's old and new values swapped (hence the same set of paths with
old/new swapped); and `calculateDiff(A, B, [])` is non-empty whenever `A`
and `B` are still not deep-equal after removing the housekeeping fields
(`id`, `createdAt`, `updatedAt`) at every depth.  The unamended
non-emptiness fails for documents differing only in housekeeping fields,
and a stored `undefined` breaks the path-set symmetry. -/
theorem diff_antisymmetry (A B : List (String × Value))
    (hA : wfFields A = true) (hB : wfFields B = true) :
    (calculateDiff (some B) (some A) [] "").Perm
      ((calculateDiff (some A) (some B) [] "").map swapChange) ∧
    (deepEqual (.vObj (scrubFields ([] : List String) A))
        (.vObj (scrubFields ([] : List String) B)) = false →
      calculateDiff (some A) (some B) [] "" ≠ []) := by
  constructor
  · simpa [calculateDiff] using diffObjects_swap A B [] "" hA hB
  · intro hne hempty
    have h := diffObjects_empty_scrub A B [] "" hA hB
      (by simpa [calculateDiff] using hempty)
    rw [h] at hne
    simp at hne

/-- Witness for C5 (amended): two concrete well-formed documents, one with a
nested object; both hypotheses are discharged by evaluation. -/
theorem diff_antisymmetry_witness :
    (wfFields [("a", Value.vNum 1), ("o", .vObj [("b", .vStr "s")])] = true ∧
      wfFields [("a", Value.vNum 2)] = true) ∧
    ((calculateDiff (some [("a", Value.vNum 2)])
        (some [("a", Value.vNum 1), ("o", .vObj [("b", .vStr "s")])]) [] "").Perm
      ((calculateDiff
          (some [("a", Value.vNum 1), ("o", .vObj [("b", .vStr "s")])])
          (some [("a", Value.vNum 2)]) [] "").map swapChange) ∧
    (deepEqual
        (.vObj (scrubFields ([] : List String)
          [("a", Value.vNum 1), ("o", .vObj [("b", .vStr "s")])]))
        (.vObj (scrubFields ([] : List String) [("a", Value.vNum 2)]))
        = false →
      calculateDiff (some [("a", Value.vNum 1), ("o", .vObj [("b", .vStr "s")])])
        (some [("a", Value.vNum 2)]) [] "" ≠ [])) :=
  ⟨⟨rfl, rfl⟩, diff_antisymmetry _ _ rfl rfl⟩

end AuditCms
